import Mathlib

/-!
Verification of the `LowPrecisionTaskScheduler` subsystem of the
wire-web-packages client SDK.

The scheduler coalesces recurring background tasks that share the same repeat
interval onto one shared timer per interval.  Its observable behaviour is fixed
by the jest test suite `LowPrecisionTaskScheduler.test.ts`, which drives the
scheduler with fake timers (`jest.setSystemTime(new Date(0))`,
`jest.advanceTimersByTime(n)`).

We model the scheduler as a deterministic state machine over virtual time
measured in milliseconds.  Virtual time advances one millisecond at a time
(`stepMs`); a bucket whose `nextTick` equals the new current time fires.
-/

namespace LowPrecisionTaskScheduler

/-- Modelled from the spec: the task registration entry of
`LowPrecisionTaskScheduler.addTask` (file
`packages/core/src/util/LowPrecisionTaskScheduler/LowPrecisionTaskScheduler.ts`,
absent from the excerpt; only its test is present).  A registration carries a
`key` (identity inside its interval bucket) and a `firingDate` (epoch anchor in
milliseconds).  The caller-supplied asynchronous work is opaque to the
scheduler; we retain only whether it would succeed (`ok`), a bit the scheduler
itself never reads — which is exactly the isolation property claimed of task
failures. -/
structure SchedulerTask where
  key : String
  firingDate : Nat
  ok : Bool
deriving DecidableEq

/-- Modelled from the spec: one interval bucket — the per-`intervalDelay`
state: the task table (insertion ordered, keyed by `key`), the set of keys
whose task has already fired (`firedKeys`), and the absolute virtual time of
the shared timer's next tick (`nextTick`).  Per the repository test
"task won't run again after it was executed previously" (and spec §8
scenario 2), a fired key stays marked for as long as it remains registered;
markers are removed only by `cancelTask`. -/
structure IntervalBucket where
  tasks : List SchedulerTask
  firedKeys : List String
  nextTick : Nat
deriving DecidableEq

/-- One observable invocation of a task's work: which key fired, in which
interval bucket, and at which virtual time. -/
structure Invocation where
  key : String
  intervalDelay : Nat
  time : Nat
deriving DecidableEq

/-- The whole scheduler state: the current virtual time, the interval buckets
(an association list keyed by `intervalDelay`; one shared timer per entry), and
the chronological log of task invocations performed so far. -/
structure SchedulerState where
  now : Nat
  buckets : List (Nat × IntervalBucket)
  log : List Invocation
deriving DecidableEq

/-- The initial state: virtual time 0 (the tests run `jest.setSystemTime(new
Date(0))`), no buckets, nothing invoked. -/
def initState : SchedulerState := { now := 0, buckets := [], log := [] }

/-- Look up the bucket registered for interval `d` (first match in the
association list). -/
def findBucket (d : Nat) : List (Nat × IntervalBucket) → Option IntervalBucket
  | [] => none
  | p :: rest => if p.1 = d then some p.2 else findBucket d rest

/-- Replace the bucket stored under interval `d` (first match) by `b`. -/
def setBucket (d : Nat) (b : IntervalBucket) :
    List (Nat × IntervalBucket) → List (Nat × IntervalBucket)
  | [] => []
  | p :: rest => if p.1 = d then (d, b) :: rest else p :: setBucket d b rest

/-- Remove every bucket stored under interval `d`. -/
def removeBucket (d : Nat) : List (Nat × IntervalBucket) → List (Nat × IntervalBucket)
  | [] => []
  | p :: rest => if p.1 = d then removeBucket d rest else p :: removeBucket d rest

/-- Insert task `t` into a task table: if an entry with the same key exists,
the first such entry is replaced in place (last write wins, as a JS
`Map.set`); otherwise `t` is appended. -/
def upsertTask (t : SchedulerTask) : List SchedulerTask → List SchedulerTask
  | [] => [t]
  | t' :: rest => if t'.key = t.key then t :: rest else t' :: upsertTask t rest

/-- Remove every entry with key `k` from a task table. -/
def removeTask (k : String) : List SchedulerTask → List SchedulerTask
  | [] => []
  | t :: rest => if t.key = k then removeTask k rest else t :: removeTask k rest

/-- Find the first entry with key `k` in a task table. -/
def findTask (k : String) : List SchedulerTask → Option SchedulerTask
  | [] => none
  | t :: rest => if t.key = k then some t else findTask k rest

/-- Whether a task table contains an entry with key `k`. -/
def memTaskKey (k : String) : List SchedulerTask → Bool
  | [] => false
  | t :: rest => if t.key = k then true else memTaskKey k rest

/-- How many entries of a task table carry key `k`. -/
def countTaskKey (k : String) : List SchedulerTask → Nat
  | [] => 0
  | t :: rest => (if t.key = k then 1 else 0) + countTaskKey k rest

/-- String membership in a list of fired keys. -/
def memStr (k : String) : List String → Bool
  | [] => false
  | k' :: rest => if k' = k then true else memStr k rest

/-- Remove every occurrence of `k` from a list of fired keys. -/
def removeKey (k : String) : List String → List String
  | [] => []
  | k' :: rest => if k' = k then removeKey k rest else k' :: removeKey k rest

/-- Modelled from the spec: `LowPrecisionTaskScheduler.addTask` (implementation
file absent from the excerpt).  If a bucket for `intervalDelay` already exists,
the entry joins that bucket (replacing any previous entry under the same key);
the existing shared timer is untouched.  Otherwise a fresh bucket is created
with its shared timer started now, so its first tick occurs one full period
from now (`nextTick = now + intervalDelay`). -/
def addTask (key : String) (firingDate intervalDelay : Nat) (ok : Bool)
    (s : SchedulerState) : SchedulerState :=
  match findBucket intervalDelay s.buckets with
  | some b =>
      { s with
        buckets :=
          setBucket intervalDelay
            { b with tasks := upsertTask ⟨key, firingDate, ok⟩ b.tasks } s.buckets }
  | none =>
      { s with
        buckets :=
          s.buckets ++
            [(intervalDelay,
              { tasks := [⟨key, firingDate, ok⟩]
                firedKeys := []
                nextTick := s.now + intervalDelay })] }

/-- Modelled from the spec: `LowPrecisionTaskScheduler.cancelTask`
(implementation file absent from the excerpt).  Removes the entry and its
fired-marker from the bucket identified by `intervalDelay`; a cancel for an
unknown key or interval is a silent no-op.  If the bucket's task table becomes
empty, the bucket (and with it the shared timer) is torn down. -/
def cancelTask (key : String) (intervalDelay : Nat) (s : SchedulerState) :
    SchedulerState :=
  match findBucket intervalDelay s.buckets with
  | none => s
  | some b =>
      let ts := removeTask key b.tasks
      if ts = [] then
        { s with buckets := removeBucket intervalDelay s.buckets }
      else
        { s with
          buckets :=
            setBucket intervalDelay
              { b with tasks := ts, firedKeys := removeKey key b.firedKeys }
              s.buckets }

/-- Modelled from the spec: the body of one shared-timer tick, walking the task
table in insertion order.  A task whose firing boundary (`firingDate`) has been
reached and whose key is not yet marked fired is invoked (fire-and-forget; the
scheduler never inspects the task's outcome) and its key is marked.  Returns
the updated fired-key list together with the invocations performed, in order.
Per the repository test, the fired mark persists across later ticks. -/
def fireTasks (now d : Nat) : List SchedulerTask → List String →
    List String × List Invocation
  | [], fired => (fired, [])
  | t :: rest, fired =>
    if t.firingDate ≤ now ∧ memStr t.key fired = false then
      let r := fireTasks now d rest (fired ++ [t.key])
      (r.1, { key := t.key, intervalDelay := d, time := now } :: r.2)
    else
      fireTasks now d rest fired

/-- Advance one bucket across the millisecond boundary reaching time `now`:
if its shared timer is due (`nextTick = now`) it ticks — its tasks are run via
`fireTasks` and the timer is re-armed one period later — otherwise it is left
unchanged.  Returns the updated bucket and the invocations it performed. -/
def stepBucket (now : Nat) (p : Nat × IntervalBucket) :
    (Nat × IntervalBucket) × List Invocation :=
  if p.2.nextTick = now then
    let r := fireTasks now p.1 p.2.tasks p.2.firedKeys
    ((p.1, { tasks := p.2.tasks, firedKeys := r.1, nextTick := p.2.nextTick + p.1 }), r.2)
  else
    ((p.1, p.2), [])

/-- Advance virtual time by one millisecond: every bucket whose shared timer is
due at the new time ticks, and the invocations performed are appended to the
log in bucket order. -/
def stepMs (s : SchedulerState) : SchedulerState :=
  { now := s.now + 1
    buckets := s.buckets.map fun p => (stepBucket (s.now + 1) p).1
    log := s.log ++ (s.buckets.map fun p => (stepBucket (s.now + 1) p).2).flatten }

/-- Advance virtual time by `n` milliseconds (the model of
`jest.advanceTimersByTime(n)`). -/
def advance : Nat → SchedulerState → SchedulerState
  | 0, s => s
  | n + 1, s => advance n (stepMs s)

/-- How many invocations of key `k` in the interval-`d` bucket the log holds. -/
def countKD (k : String) (d : Nat) : List Invocation → Nat
  | [] => 0
  | i :: rest => (if i.key = k ∧ i.intervalDelay = d then 1 else 0) + countKD k d rest

/-- How many invocations of key `k` in the interval-`d` bucket the log holds
inside the half-open time window `[t, t + d)`. -/
def countWindow (k : String) (d t : Nat) : List Invocation → Nat
  | [] => 0
  | i :: rest =>
      (if i.key = k ∧ i.intervalDelay = d ∧ t ≤ i.time ∧ i.time < t + d then 1 else 0) +
        countWindow k d t rest

/-- The reachable scheduler states: everything obtainable from the initial
state by registering tasks, cancelling tasks, and letting virtual time pass. -/
inductive Reachable : SchedulerState → Prop
  | init : Reachable initState
  | add (k : String) (fd d : Nat) (ok : Bool) {s : SchedulerState} :
      Reachable s → Reachable (addTask k fd d ok s)
  | cancel (k : String) (d : Nat) {s : SchedulerState} :
      Reachable s → Reachable (cancelTask k d s)
  | step {s : SchedulerState} : Reachable s → Reachable (stepMs s)

/-- One external stimulus to the scheduler: a registration, a cancellation, or
one millisecond of virtual time. -/
inductive Action where
  | add (key : String) (firingDate intervalDelay : Nat) (ok : Bool)
  | cancel (key : String) (intervalDelay : Nat)
  | tickMs
deriving DecidableEq

/-- The (functional) effect of one stimulus on the scheduler state. -/
def applyAction : Action → SchedulerState → SchedulerState
  | .add k fd d ok, s => addTask k fd d ok s
  | .cancel k d, s => cancelTask k d s
  | .tickMs, s => stepMs s

/-- Big-step execution relation: `Exec s as t` says that starting from state
`s` and applying the stimuli `as` in order, the scheduler ends in state `t`. -/
inductive Exec : SchedulerState → List Action → SchedulerState → Prop
  | nil (s : SchedulerState) : Exec s [] s
  | cons {s s' t : SchedulerState} {a : Action} {as : List Action} :
      applyAction a s = s' → Exec s' as t → Exec s (a :: as) t

/-- Advancing by a sum of milliseconds is advancing by the parts in order. -/
theorem advance_add (a b : Nat) (s : SchedulerState) :
    advance (a + b) s = advance b (advance a s) := by
  induction a generalizing s with
  | zero => rw [Nat.zero_add]; rfl
  | succ a ih =>
      rw [Nat.succ_add]
      show advance (a + b) (stepMs s) = advance b (advance a (stepMs s))
      exact ih (stepMs s)

/-- Splitting an advance at an intermediate point. -/
theorem advance_split (a b n : Nat) (h : a + b = n) (s : SchedulerState) :
    advance n s = advance b (advance a s) := by
  subst h
  exact advance_add a b s

/-- A millisecond step on which no bucket's timer is due only moves the
clock. -/
theorem stepMs_idle {s : SchedulerState}
    (h : ∀ p ∈ s.buckets, p.2.nextTick ≠ s.now + 1) :
    stepMs s = { s with now := s.now + 1 } := by
  have hb : (s.buckets.map fun p => (stepBucket (s.now + 1) p).1) = s.buckets := by
    have h1 : ∀ p ∈ s.buckets, (stepBucket (s.now + 1) p).1 = id p := by
      intro p hp
      unfold stepBucket
      rw [if_neg (h p hp)]
      rfl
    rw [List.map_congr_left h1, List.map_id]
  have hl : (s.buckets.map fun p => (stepBucket (s.now + 1) p).2).flatten = [] := by
    rw [List.flatten_eq_nil_iff]
    intro x hx
    rcases List.mem_map.mp hx with ⟨p, hp, rfl⟩
    unfold stepBucket
    rw [if_neg (h p hp)]
  unfold stepMs
  rw [hb, hl, List.append_nil]

/-- An advance during which no bucket's timer ever becomes due only moves the
clock: every timer is either already in the past (a stuck zero-interval
bucket) or strictly beyond the horizon. -/
theorem advance_idle {n : Nat} {s : SchedulerState}
    (h : ∀ p ∈ s.buckets, p.2.nextTick ≤ s.now ∨ s.now + n < p.2.nextTick) :
    advance n s = { s with now := s.now + n } := by
  induction n generalizing s with
  | zero => rfl
  | succ n ih =>
      have h1 : ∀ p ∈ s.buckets, p.2.nextTick ≠ s.now + 1 := by
        intro p hp
        rcases h p hp with h' | h' <;> omega
      show advance n (stepMs s) = _
      rw [stepMs_idle h1]
      rw [ih (by
        intro p hp
        show p.2.nextTick ≤ s.now + 1 ∨ s.now + 1 + n < p.2.nextTick
        rcases h p hp with h' | h' <;> omega)]
      have e : ({ s with now := s.now + 1 } : SchedulerState).now + n = s.now + (n + 1) := by
        show s.now + 1 + n = s.now + (n + 1)
        omega
      rw [e]

/-- C8: a task added at virtual time 0 with `firingDate = 0` and
`intervalDelay = 1000` is not invoked at registration time; after virtual time
advances by 1001 ms it has been invoked exactly once (the first firing happens
at the first interval boundary, 1000 ms after registration). -/
theorem C8_first_fire_after_one_period :
    countKD "test-key" 1000 (addTask "test-key" 0 1000 true initState).log = 0 ∧
    countKD "test-key" 1000 (advance 1001 (addTask "test-key" 0 1000 true initState)).log = 1 := by
  have e0 : addTask "test-key" 0 1000 true initState =
      (⟨0, [(1000, ⟨[⟨"test-key", 0, true⟩], [], 1000⟩)], []⟩ : SchedulerState) := by decide
  constructor
  · rw [e0]; decide
  · have e1 : advance 999 (⟨0, [(1000, ⟨[⟨"test-key", 0, true⟩], [], 1000⟩)], []⟩ : SchedulerState) =
        (⟨999, [(1000, ⟨[⟨"test-key", 0, true⟩], [], 1000⟩)], []⟩ : SchedulerState) :=
      (advance_idle (by decide)).trans (by decide)
    have e2 : stepMs (⟨999, [(1000, ⟨[⟨"test-key", 0, true⟩], [], 1000⟩)], []⟩ : SchedulerState) =
        (⟨1000, [(1000, ⟨[⟨"test-key", 0, true⟩], ["test-key"], 2000⟩)],
          [⟨"test-key", 1000, 1000⟩]⟩ : SchedulerState) := by decide
    have e3 : advance 1 (⟨1000, [(1000, ⟨[⟨"test-key", 0, true⟩], ["test-key"], 2000⟩)],
        [⟨"test-key", 1000, 1000⟩]⟩ : SchedulerState) =
        (⟨1001, [(1000, ⟨[⟨"test-key", 0, true⟩], ["test-key"], 2000⟩)],
          [⟨"test-key", 1000, 1000⟩]⟩ : SchedulerState) :=
      (advance_idle (by decide)).trans (by decide)
    rw [e0, advance_split 999 2 1001 (by norm_num), e1]
    show countKD "test-key" 1000
      (advance 1 (stepMs (⟨999, [(1000, ⟨[⟨"test-key", 0, true⟩], [], 1000⟩)], []⟩ :
        SchedulerState))).log = 1
    rw [e2, e3]
    decide

/-- C3: the regression pinned by the repository test "task won't run again
after it was executed previously": one `addTask` with `intervalDelay = 2000`,
`firingDate = 0` at virtual time 0, followed by two successive advances of
2001 ms each, produces exactly one invocation in total — not one invocation
per elapsed window. -/
theorem C3_no_second_fire_without_reregistration :
    countKD "test-key" 2000
      (advance 2001 (advance 2001 (addTask "test-key" 0 2000 true initState))).log = 1 := by
  have e0 : addTask "test-key" 0 2000 true initState =
      (⟨0, [(2000, ⟨[⟨"test-key", 0, true⟩], [], 2000⟩)], []⟩ : SchedulerState) := by decide
  have e1 : advance 1999 (⟨0, [(2000, ⟨[⟨"test-key", 0, true⟩], [], 2000⟩)], []⟩ : SchedulerState) =
      (⟨1999, [(2000, ⟨[⟨"test-key", 0, true⟩], [], 2000⟩)], []⟩ : SchedulerState) :=
    (advance_idle (by decide)).trans (by decide)
  have e2 : stepMs (⟨1999, [(2000, ⟨[⟨"test-key", 0, true⟩], [], 2000⟩)], []⟩ : SchedulerState) =
      (⟨2000, [(2000, ⟨[⟨"test-key", 0, true⟩], ["test-key"], 4000⟩)],
        [⟨"test-key", 2000, 2000⟩]⟩ : SchedulerState) := by decide
  have eA : advance 2001 (⟨0, [(2000, ⟨[⟨"test-key", 0, true⟩], [], 2000⟩)], []⟩ : SchedulerState) =
      (⟨2001, [(2000, ⟨[⟨"test-key", 0, true⟩], ["test-key"], 4000⟩)],
        [⟨"test-key", 2000, 2000⟩]⟩ : SchedulerState) := by
    rw [advance_split 1999 2 2001 (by norm_num), e1]
    show advance 1 (stepMs (⟨1999, [(2000, ⟨[⟨"test-key", 0, true⟩], [], 2000⟩)], []⟩ :
      SchedulerState)) = _
    rw [e2]
    exact (advance_idle (by decide)).trans (by decide)
  have e3 : advance 1998 (⟨2001, [(2000, ⟨[⟨"test-key", 0, true⟩], ["test-key"], 4000⟩)],
      [⟨"test-key", 2000, 2000⟩]⟩ : SchedulerState) =
      (⟨3999, [(2000, ⟨[⟨"test-key", 0, true⟩], ["test-key"], 4000⟩)],
        [⟨"test-key", 2000, 2000⟩]⟩ : SchedulerState) :=
    (advance_idle (by decide)).trans (by decide)
  have e4 : stepMs (⟨3999, [(2000, ⟨[⟨"test-key", 0, true⟩], ["test-key"], 4000⟩)],
      [⟨"test-key", 2000, 2000⟩]⟩ : SchedulerState) =
      (⟨4000, [(2000, ⟨[⟨"test-key", 0, true⟩], ["test-key"], 6000⟩)],
        [⟨"test-key", 2000, 2000⟩]⟩ : SchedulerState) := by decide
  have e5 : advance 2 (⟨4000, [(2000, ⟨[⟨"test-key", 0, true⟩], ["test-key"], 6000⟩)],
      [⟨"test-key", 2000, 2000⟩]⟩ : SchedulerState) =
      (⟨4002, [(2000, ⟨[⟨"test-key", 0, true⟩], ["test-key"], 6000⟩)],
        [⟨"test-key", 2000, 2000⟩]⟩ : SchedulerState) :=
    (advance_idle (by decide)).trans (by decide)
  rw [e0, eA, advance_split 1998 3 2001 (by norm_num), e3]
  show countKD "test-key" 2000
    (advance 2 (stepMs (⟨3999, [(2000, ⟨[⟨"test-key", 0, true⟩], ["test-key"], 4000⟩)],
      [⟨"test-key", 2000, 2000⟩]⟩ : SchedulerState))).log = 1
  rw [e4, e5]
  decide

/-- Counting key/interval-filtered invocations distributes over log
concatenation. -/
theorem countKD_append (k : String) (d : Nat) (l l' : List Invocation) :
    countKD k d (l ++ l') = countKD k d l + countKD k d l' := by
  induction l with
  | nil =>
      rw [List.nil_append]
      show countKD k d l' = 0 + countKD k d l'
      rw [Nat.zero_add]
  | cons i rest ih =>
      show (if i.key = k ∧ i.intervalDelay = d then 1 else 0) + countKD k d (rest ++ l') = _
      rw [ih]
      show _ = (if i.key = k ∧ i.intervalDelay = d then 1 else 0) + countKD k d rest + countKD k d l'
      omega

/-- The shape of every state reachable from a single registration of
`(k, fd, d, ok)` on the empty scheduler by letting time pass: one bucket, one
task, and the fired-marker agrees with the number of logged invocations
(zero before the task has fired, one — forever — afterwards). -/
def SingleTrace (k : String) (fd d : Nat) (ok : Bool) (s : SchedulerState) : Prop :=
  ∃ f m, s.buckets = [(d, ⟨[⟨k, fd, ok⟩], f, m⟩)] ∧
    ((f = [] ∧ countKD k d s.log = 0) ∨ (f = [k] ∧ countKD k d s.log = 1))

/-- A single registration on the empty scheduler starts a single-task trace. -/
theorem singleTrace_start (k : String) (fd d : Nat) (ok : Bool) :
    SingleTrace k fd d ok (addTask k fd d ok initState) :=
  ⟨[], initState.now + d, rfl, Or.inl ⟨rfl, rfl⟩⟩

/-- A millisecond step preserves the single-task trace shape: in particular a
fired-marker, once set, is never reset, so the task cannot fire a second
time. -/
theorem singleTrace_step (k : String) (fd d : Nat) (ok : Bool) (s : SchedulerState)
    (h : SingleTrace k fd d ok s) : SingleTrace k fd d ok (stepMs s) := by
  obtain ⟨f, m, hb, hcase⟩ := h
  have hlog : (stepMs s).log =
      s.log ++ (stepBucket (s.now + 1) (d, ⟨[⟨k, fd, ok⟩], f, m⟩)).2 := by
    show s.log ++ _ = _
    rw [hb]
    show s.log ++ ((stepBucket (s.now + 1) (d, ⟨[⟨k, fd, ok⟩], f, m⟩)).2 ++
      List.flatten []) = _
    rw [List.flatten, List.append_nil]
  have hbk : (stepMs s).buckets =
      [(stepBucket (s.now + 1) (d, ⟨[⟨k, fd, ok⟩], f, m⟩)).1] := by
    show s.buckets.map _ = _
    rw [hb]
    rfl
  rcases hcase with ⟨hf, hc⟩ | ⟨hf, hc⟩
  · subst hf
    by_cases hm : m = s.now + 1
    · by_cases hfd : fd ≤ s.now + 1
      · refine ⟨[k], m + d, ?_, Or.inr ⟨rfl, ?_⟩⟩
        · rw [hbk]
          unfold stepBucket
          rw [if_pos hm]
          show [(d, (⟨[⟨k, fd, ok⟩], (fireTasks (s.now + 1) d [⟨k, fd, ok⟩] []).1, m + d⟩ : IntervalBucket))] = _
          unfold fireTasks
          rw [if_pos (show fd ≤ s.now + 1 ∧ memStr k [] = false from ⟨hfd, rfl⟩)]
          rfl
        · rw [hlog]
          unfold stepBucket
          rw [if_pos hm]
          show countKD k d (s.log ++ (fireTasks (s.now + 1) d [⟨k, fd, ok⟩] []).2) = 1
          unfold fireTasks
          rw [if_pos (show fd ≤ s.now + 1 ∧ memStr k [] = false from ⟨hfd, rfl⟩)]
          rw [countKD_append, hc]
          show 0 + ((if k = k ∧ d = d then 1 else 0) + countKD k d []) = 1
          rw [if_pos (show k = k ∧ d = d from ⟨rfl, rfl⟩)]
          rfl
      · refine ⟨[], m + d, ?_, Or.inl ⟨rfl, ?_⟩⟩
        · rw [hbk]
          unfold stepBucket
          rw [if_pos hm]
          show [(d, (⟨[⟨k, fd, ok⟩], (fireTasks (s.now + 1) d [⟨k, fd, ok⟩] []).1, m + d⟩ : IntervalBucket))] = _
          unfold fireTasks
          rw [if_neg (show ¬(fd ≤ s.now + 1 ∧ memStr k [] = false) from
            fun hco => hfd hco.1)]
          rfl
        · rw [hlog]
          unfold stepBucket
          rw [if_pos hm]
          show countKD k d (s.log ++ (fireTasks (s.now + 1) d [⟨k, fd, ok⟩] []).2) = 0
          unfold fireTasks
          rw [if_neg (show ¬(fd ≤ s.now + 1 ∧ memStr k [] = false) from
            fun hco => hfd hco.1)]
          show countKD k d (s.log ++ []) = 0
          rw [List.append_nil, hc]
    · refine ⟨[], m, ?_, Or.inl ⟨rfl, ?_⟩⟩
      · rw [hbk]
        unfold stepBucket
        rw [if_neg hm]
      · rw [hlog]
        unfold stepBucket
        rw [if_neg hm]
        rw [List.append_nil, hc]
  · subst hf
    have hmem : memStr k [k] = true := by
      unfold memStr
      rw [if_pos rfl]
    by_cases hm : m = s.now + 1
    · refine ⟨[k], m + d, ?_, Or.inr ⟨rfl, ?_⟩⟩
      · rw [hbk]
        unfold stepBucket
        rw [if_pos hm]
        show [(d, (⟨[⟨k, fd, ok⟩], (fireTasks (s.now + 1) d [⟨k, fd, ok⟩] [k]).1, m + d⟩ : IntervalBucket))] = _
        unfold fireTasks
        rw [if_neg (show ¬(fd ≤ s.now + 1 ∧ memStr k [k] = false) by
          intro hco; rw [hmem] at hco; exact Bool.noConfusion hco.2)]
        rfl
      · rw [hlog]
        unfold stepBucket
        rw [if_pos hm]
        show countKD k d (s.log ++ (fireTasks (s.now + 1) d [⟨k, fd, ok⟩] [k]).2) = 1
        unfold fireTasks
        rw [if_neg (show ¬(fd ≤ s.now + 1 ∧ memStr k [k] = false) by
          intro hco; rw [hmem] at hco; exact Bool.noConfusion hco.2)]
        show countKD k d (s.log ++ []) = 1
        rw [List.append_nil, hc]
    · refine ⟨[k], m, ?_, Or.inr ⟨rfl, ?_⟩⟩
      · rw [hbk]
        unfold stepBucket
        rw [if_neg hm]
      · rw [hlog]
        unfold stepBucket
        rw [if_neg hm]
        rw [List.append_nil, hc]

/-- Letting any amount of time pass preserves the single-task trace shape. -/
theorem singleTrace_advance (k : String) (fd d : Nat) (ok : Bool) (n : Nat)
    (s : SchedulerState) (h : SingleTrace k fd d ok s) :
    SingleTrace k fd d ok (advance n s) := by
  induction n generalizing s with
  | zero => exact h
  | succ n ih => exact ih (stepMs s) (singleTrace_step k fd d ok s h)

/-- The full run of the two-window regression scenario: registration of
`test-key` with interval 2000 at time 0, then 4002 ms of virtual time, spanning
the window boundaries at 2000 and 4000. -/
theorem two_window_run :
    advance 2001 (advance 2001 (addTask "test-key" 0 2000 true initState)) =
    (⟨4002, [(2000, ⟨[⟨"test-key", 0, true⟩], ["test-key"], 6000⟩)],
      [⟨"test-key", 2000, 2000⟩]⟩ : SchedulerState) := by
  have e0 : addTask "test-key" 0 2000 true initState =
      (⟨0, [(2000, ⟨[⟨"test-key", 0, true⟩], [], 2000⟩)], []⟩ : SchedulerState) := by decide
  have e1 : advance 1999 (⟨0, [(2000, ⟨[⟨"test-key", 0, true⟩], [], 2000⟩)], []⟩ : SchedulerState) =
      (⟨1999, [(2000, ⟨[⟨"test-key", 0, true⟩], [], 2000⟩)], []⟩ : SchedulerState) :=
    (advance_idle (by decide)).trans (by decide)
  have e2 : stepMs (⟨1999, [(2000, ⟨[⟨"test-key", 0, true⟩], [], 2000⟩)], []⟩ : SchedulerState) =
      (⟨2000, [(2000, ⟨[⟨"test-key", 0, true⟩], ["test-key"], 4000⟩)],
        [⟨"test-key", 2000, 2000⟩]⟩ : SchedulerState) := by decide
  have eA : advance 2001 (⟨0, [(2000, ⟨[⟨"test-key", 0, true⟩], [], 2000⟩)], []⟩ : SchedulerState) =
      (⟨2001, [(2000, ⟨[⟨"test-key", 0, true⟩], ["test-key"], 4000⟩)],
        [⟨"test-key", 2000, 2000⟩]⟩ : SchedulerState) := by
    rw [advance_split 1999 2 2001 (by norm_num), e1]
    show advance 1 (stepMs (⟨1999, [(2000, ⟨[⟨"test-key", 0, true⟩], [], 2000⟩)], []⟩ :
      SchedulerState)) = _
    rw [e2]
    exact (advance_idle (by decide)).trans (by decide)
  have e3 : advance 1998 (⟨2001, [(2000, ⟨[⟨"test-key", 0, true⟩], ["test-key"], 4000⟩)],
      [⟨"test-key", 2000, 2000⟩]⟩ : SchedulerState) =
      (⟨3999, [(2000, ⟨[⟨"test-key", 0, true⟩], ["test-key"], 4000⟩)],
        [⟨"test-key", 2000, 2000⟩]⟩ : SchedulerState) :=
    (advance_idle (by decide)).trans (by decide)
  have e4 : stepMs (⟨3999, [(2000, ⟨[⟨"test-key", 0, true⟩], ["test-key"], 4000⟩)],
      [⟨"test-key", 2000, 2000⟩]⟩ : SchedulerState) =
      (⟨4000, [(2000, ⟨[⟨"test-key", 0, true⟩], ["test-key"], 6000⟩)],
        [⟨"test-key", 2000, 2000⟩]⟩ : SchedulerState) := by decide
  have e5 : advance 2 (⟨4000, [(2000, ⟨[⟨"test-key", 0, true⟩], ["test-key"], 6000⟩)],
      [⟨"test-key", 2000, 2000⟩]⟩ : SchedulerState) =
      (⟨4002, [(2000, ⟨[⟨"test-key", 0, true⟩], ["test-key"], 6000⟩)],
        [⟨"test-key", 2000, 2000⟩]⟩ : SchedulerState) :=
    (advance_idle (by decide)).trans (by decide)
  rw [e0, eA, advance_split 1998 3 2001 (by norm_num), e3]
  show advance 2 (stepMs (⟨3999, [(2000, ⟨[⟨"test-key", 0, true⟩], ["test-key"], 4000⟩)],
    [⟨"test-key", 2000, 2000⟩]⟩ : SchedulerState)) = _
  rw [e4, e5]

/-- C1 counterexample: after a single registration (interval 2000, firing date
0) and two full elapsed windows (ticks at 2000 and 4000, task still
registered), the task has been invoked once, not once per elapsed window (which
would be twice), and its fired-marker is still set at the end — it was not
reset at the start of the second window. -/
theorem C1_counterexample_marker_not_reset :
    countKD "test-key" 2000
      (advance 2001 (advance 2001 (addTask "test-key" 0 2000 true initState))).log = 1 ∧
    countKD "test-key" 2000
      (advance 2001 (advance 2001 (addTask "test-key" 0 2000 true initState))).log ≠ 2 ∧
    findBucket 2000
      (advance 2001 (advance 2001 (addTask "test-key" 0 2000 true initState))).buckets =
      some ⟨[⟨"test-key", 0, true⟩], ["test-key"], 6000⟩ := by
  rw [two_window_run]
  exact ⟨by decide, by decide, by decide⟩

/-- C1 amended: a task's fired-marker is not reset at the start of the next
window; it persists for as long as the task stays registered, so a single
`addTask` registration yields at most one invocation in total, however much
virtual time elapses. -/
theorem C1_amended_no_reinvocation_without_reregistration
    (k : String) (fd d : Nat) (ok : Bool) (n : Nat) :
    countKD k d (advance n (addTask k fd d ok initState)).log ≤ 1 := by
  obtain ⟨f, m, hb, hcase⟩ :=
    singleTrace_advance k fd d ok n _ (singleTrace_start k fd d ok)
  rcases hcase with ⟨_, hc⟩ | ⟨_, hc⟩ <;> omega

/-- Overwrite the success flag of the entry with key `k` in a task table,
leaving the key and firing date untouched — the same task table, with only the
outcome of the opaque asynchronous work changed. -/
def setOkTask (k : String) (v : Bool) : List SchedulerTask → List SchedulerTask
  | [] => []
  | t :: rest => (if t.key = k then { t with ok := v } else t) :: setOkTask k v rest

/-- Overwrite the success flag of task `k` of the interval-`d` bucket inside a
whole scheduler state. -/
def setTaskOk (k : String) (d : Nat) (v : Bool) (s : SchedulerState) : SchedulerState :=
  { s with
    buckets := s.buckets.map fun p =>
      if p.1 = d then (p.1, { p.2 with tasks := setOkTask k v p.2.tasks }) else p }

/-- A tick never reads the success flag of any task: running the tick body on a
table with one task's flag rewritten produces the identical fired-keys and the
identical invocations. -/
theorem fireTasks_setOk (now d : Nat) (k : String) (v : Bool)
    (ts : List SchedulerTask) : ∀ f : List String,
    fireTasks now d (setOkTask k v ts) f = fireTasks now d ts f := by
  induction ts with
  | nil => intro f; rfl
  | cons t rest ih =>
      intro f
      show fireTasks now d ((if t.key = k then { t with ok := v } else t) :: setOkTask k v rest) f
        = fireTasks now d (t :: rest) f
      by_cases hk : t.key = k
      · rw [if_pos hk]
        show (if t.firingDate ≤ now ∧ memStr t.key f = false then
            ((fireTasks now d (setOkTask k v rest) (f ++ [t.key])).1,
              ({ key := t.key, intervalDelay := d, time := now } : Invocation) ::
                (fireTasks now d (setOkTask k v rest) (f ++ [t.key])).2)
          else fireTasks now d (setOkTask k v rest) f) = fireTasks now d (t :: rest) f
        rw [ih (f ++ [t.key]), ih f]
        rfl
      · rw [if_neg hk]
        show (if t.firingDate ≤ now ∧ memStr t.key f = false then
            ((fireTasks now d (setOkTask k v rest) (f ++ [t.key])).1,
              ({ key := t.key, intervalDelay := d, time := now } : Invocation) ::
                (fireTasks now d (setOkTask k v rest) (f ++ [t.key])).2)
          else fireTasks now d (setOkTask k v rest) f) = fireTasks now d (t :: rest) f
        rw [ih (f ++ [t.key]), ih f]
        rfl

/-- The first projection of a bucket step is the bucket's interval. -/
theorem stepBucket_fst (now : Nat) (p : Nat × IntervalBucket) :
    (stepBucket now p).1.1 = p.1 := by
  unfold stepBucket
  split <;> rfl

/-- A bucket step commutes with rewriting one task's success flag: the stepped
bucket differs only in the same flag rewrite, and the emitted invocations are
identical. -/
theorem stepBucket_setOk (now : Nat) (k : String) (v : Bool) (d' : Nat)
    (b : IntervalBucket) :
    stepBucket now (d', { b with tasks := setOkTask k v b.tasks }) =
      (((stepBucket now (d', b)).1.1,
        { (stepBucket now (d', b)).1.2 with
            tasks := setOkTask k v (stepBucket now (d', b)).1.2.tasks }),
        (stepBucket now (d', b)).2) := by
  obtain ⟨ts, fk, nt⟩ := b
  unfold stepBucket
  by_cases hm : nt = now
  · rw [if_pos hm, if_pos hm, fireTasks_setOk now d' k v ts fk]
  · rw [if_neg hm, if_neg hm]

/-- C9: task failure is isolated.  Changing whether one task's asynchronous
work succeeds or fails (`setTaskOk`) commutes with a millisecond step, and in
particular the invocation log after the step — which siblings fired, at what
times — is identical whether the task fails or succeeds.  The scheduler's
transition is a total function of the flag-erased state: a failing task
surfaces no error, never stops its bucket's timer, and never prevents a
sibling's invocation. -/
theorem C9_task_failure_isolated (s : SchedulerState) (k : String) (d : Nat) (v : Bool) :
    stepMs (setTaskOk k d v s) = setTaskOk k d v (stepMs s) ∧
    (stepMs (setTaskOk k d v s)).log = (stepMs s).log := by
  have hpt1 : ∀ p : Nat × IntervalBucket,
      (stepBucket (s.now + 1)
        (if p.1 = d then (p.1, { p.2 with tasks := setOkTask k v p.2.tasks }) else p)).1 =
      (if q : (stepBucket (s.now + 1) p).1.1 = d then
        ((stepBucket (s.now + 1) p).1.1,
          { (stepBucket (s.now + 1) p).1.2 with
              tasks := setOkTask k v (stepBucket (s.now + 1) p).1.2.tasks })
      else (stepBucket (s.now + 1) p).1) := by
    intro p
    by_cases hd : p.1 = d
    · rw [if_pos hd, dif_pos (by rw [stepBucket_fst]; exact hd)]
      obtain ⟨d', b⟩ := p
      have hd' : d' = d := hd
      subst hd'
      rw [stepBucket_setOk]
    · rw [if_neg hd, dif_neg (by rw [stepBucket_fst]; exact hd)]
  have hpt2 : ∀ p : Nat × IntervalBucket,
      (stepBucket (s.now + 1)
        (if p.1 = d then (p.1, { p.2 with tasks := setOkTask k v p.2.tasks }) else p)).2 =
      (stepBucket (s.now + 1) p).2 := by
    intro p
    by_cases hd : p.1 = d
    · rw [if_pos hd]
      obtain ⟨d', b⟩ := p
      rw [stepBucket_setOk]
    · rw [if_neg hd]
  constructor
  · show (⟨s.now + 1,
      ((s.buckets.map fun p =>
        if p.1 = d then (p.1, { p.2 with tasks := setOkTask k v p.2.tasks }) else p).map
          fun p => (stepBucket (s.now + 1) p).1),
      s.log ++ ((s.buckets.map fun p =>
        if p.1 = d then (p.1, { p.2 with tasks := setOkTask k v p.2.tasks }) else p).map
          fun p => (stepBucket (s.now + 1) p).2).flatten⟩ : SchedulerState) = _
    rw [List.map_map, List.map_map]
    show (⟨s.now + 1,
      (s.buckets.map fun p => (stepBucket (s.now + 1)
        (if p.1 = d then (p.1, { p.2 with tasks := setOkTask k v p.2.tasks }) else p)).1),
      s.log ++ (s.buckets.map fun p => (stepBucket (s.now + 1)
        (if p.1 = d then (p.1, { p.2 with tasks := setOkTask k v p.2.tasks }) else p)).2).flatten⟩ :
        SchedulerState) = _
    rw [List.map_congr_left fun p _ => hpt1 p, List.map_congr_left fun p _ => hpt2 p]
    show (⟨s.now + 1,
      (s.buckets.map fun p =>
        if q : (stepBucket (s.now + 1) p).1.1 = d then
          ((stepBucket (s.now + 1) p).1.1,
            { (stepBucket (s.now + 1) p).1.2 with
                tasks := setOkTask k v (stepBucket (s.now + 1) p).1.2.tasks })
        else (stepBucket (s.now + 1) p).1),
      s.log ++ (s.buckets.map fun p => (stepBucket (s.now + 1) p).2).flatten⟩ : SchedulerState) = _
    show _ = (⟨s.now + 1,
      ((s.buckets.map fun p => (stepBucket (s.now + 1) p).1).map fun p =>
        if p.1 = d then (p.1, { p.2 with tasks := setOkTask k v p.2.tasks }) else p),
      s.log ++ (s.buckets.map fun p => (stepBucket (s.now + 1) p).2).flatten⟩ : SchedulerState)
    rw [List.map_map]
    have : ∀ p : Nat × IntervalBucket,
        (if q : (stepBucket (s.now + 1) p).1.1 = d then
          ((stepBucket (s.now + 1) p).1.1,
            { (stepBucket (s.now + 1) p).1.2 with
                tasks := setOkTask k v (stepBucket (s.now + 1) p).1.2.tasks })
        else (stepBucket (s.now + 1) p).1) =
        (if (stepBucket (s.now + 1) p).1.1 = d then
          ((stepBucket (s.now + 1) p).1.1,
            { (stepBucket (s.now + 1) p).1.2 with
                tasks := setOkTask k v (stepBucket (s.now + 1) p).1.2.tasks })
        else (stepBucket (s.now + 1) p).1) := by
      intro p
      by_cases hq : (stepBucket (s.now + 1) p).1.1 = d
      · rw [dif_pos hq, if_pos hq]
      · rw [dif_neg hq, if_neg hq]
    rw [List.map_congr_left fun p _ => this p]
    rfl
  · show (stepMs (setTaskOk k d v s)).log = _
    have h2 : (setTaskOk k d v s).log = s.log := rfl
    show (setTaskOk k d v s).log ++ ((setTaskOk k d v s).buckets.map
      fun p => (stepBucket ((setTaskOk k d v s).now + 1) p).2).flatten = _
    rw [h2]
    show s.log ++ ((s.buckets.map fun p =>
        if p.1 = d then (p.1, { p.2 with tasks := setOkTask k v p.2.tasks }) else p).map
          fun p => (stepBucket (s.now + 1) p).2).flatten = _
    rw [List.map_map]
    show s.log ++ (s.buckets.map fun p => (stepBucket (s.now + 1)
      (if p.1 = d then (p.1, { p.2 with tasks := setOkTask k v p.2.tasks }) else p)).2).flatten = _
    rw [List.map_congr_left fun p _ => hpt2 p]
    rfl

/-- Two executions of the same stimulus list from the same start state reach
the same state. -/
theorem exec_deterministic {s : SchedulerState} {as : List Action}
    {t1 t2 : SchedulerState} (h1 : Exec s as t1) (h2 : Exec s as t2) : t1 = t2 := by
  induction h1 generalizing t2 with
  | nil _ => cases h2 with | nil _ => rfl
  | cons ha hexec ih =>
      cases h2 with
      | cons hb hexec2 =>
          subst hb
          subst ha
          exact ih hexec2

/-- C10: the scheduler is deterministic — two runs applying the identical
sequence of registrations, cancellations and millisecond ticks from the same
state produce the identical invocation log (same tasks, same counts, same
order) and the identical final bucket state. -/
theorem C10_deterministic_runs (s : SchedulerState) (as : List Action)
    (t1 t2 : SchedulerState) (h1 : Exec s as t1) (h2 : Exec s as t2) :
    t1.log = t2.log ∧ t1.buckets = t2.buckets := by
  rw [exec_deterministic h1 h2]
  exact ⟨rfl, rfl⟩

/-- Witness for C10 at a concrete run: registering a task and letting one
millisecond pass, twice, gives equal logs and equal buckets. -/
theorem C10_deterministic_runs_witness :
    (stepMs (addTask "a" 0 5 true initState)).log =
      (stepMs (addTask "a" 0 5 true initState)).log ∧
    (stepMs (addTask "a" 0 5 true initState)).buckets =
      (stepMs (addTask "a" 0 5 true initState)).buckets :=
  C10_deterministic_runs initState [Action.add "a" 0 5 true, Action.tickMs] _ _
    (Exec.cons rfl (Exec.cons rfl (Exec.nil _)))
    (Exec.cons rfl (Exec.cons rfl (Exec.nil _)))

/-- A successful bucket lookup is list membership. -/
theorem findBucket_mem {d : Nat} {l : List (Nat × IntervalBucket)} {b : IntervalBucket}
    (h : findBucket d l = some b) : (d, b) ∈ l := by
  induction l with
  | nil => cases h
  | cons p rest ih =>
      unfold findBucket at h
      by_cases hp : p.1 = d
      · rw [if_pos hp] at h
        injection h with h
        subst h
        rw [← hp]
        exact List.mem_cons_self p rest
      · rw [if_neg hp] at h
        exact List.mem_cons_of_mem p (ih h)

/-- A bucket lookup fails exactly when no entry carries the interval. -/
theorem findBucket_eq_none {d : Nat} {l : List (Nat × IntervalBucket)} :
    findBucket d l = none ↔ ∀ p ∈ l, p.1 ≠ d := by
  induction l with
  | nil =>
      constructor
      · intro _ p hp
        cases hp
      · intro _
        rfl
  | cons p rest ih =>
      unfold findBucket
      by_cases hp : p.1 = d
      · rw [if_pos hp]
        constructor
        · intro h
          cases h
        · intro h
          exact absurd hp (h p (List.mem_cons_self p rest))
      · rw [if_neg hp, ih]
        constructor
        · intro h q hq
          rcases List.mem_cons.mp hq with rfl | hq'
          · exact hp
          · exact h q hq'
        · intro h q hq
          exact h q (List.mem_cons_of_mem p hq)

/-- Whatever sits in a bucket list after a replacement was either put there by
the replacement or was already present. -/
theorem mem_setBucket {d : Nat} {b : IntervalBucket} {l : List (Nat × IntervalBucket)}
    {q : Nat × IntervalBucket} (h : q ∈ setBucket d b l) : q = (d, b) ∨ q ∈ l := by
  induction l with
  | nil => cases h
  | cons p rest ih =>
      unfold setBucket at h
      by_cases hp : p.1 = d
      · rw [if_pos hp] at h
        rcases List.mem_cons.mp h with rfl | h'
        · exact Or.inl rfl
        · exact Or.inr (List.mem_cons_of_mem p h')
      · rw [if_neg hp] at h
        rcases List.mem_cons.mp h with rfl | h'
        · exact Or.inr (List.mem_cons_self q rest)
        · rcases ih h' with h'' | h''
          · exact Or.inl h''
          · exact Or.inr (List.mem_cons_of_mem p h'')

/-- Replacing a bucket in place does not change the association list's key
sequence — no timer is created or destroyed. -/
theorem setBucket_map_fst (d : Nat) (b : IntervalBucket) (l : List (Nat × IntervalBucket)) :
    (setBucket d b l).map Prod.fst = l.map Prod.fst := by
  induction l with
  | nil => rfl
  | cons p rest ih =>
      unfold setBucket
      by_cases hp : p.1 = d
      · rw [if_pos hp]
        show d :: rest.map Prod.fst = p.1 :: rest.map Prod.fst
        rw [hp]
      · rw [if_neg hp]
        show p.1 :: (setBucket d b rest).map Prod.fst = p.1 :: rest.map Prod.fst
        rw [ih]

/-- Tearing a bucket down yields a sublist of the bucket list. -/
theorem removeBucket_sublist (d : Nat) (l : List (Nat × IntervalBucket)) :
    List.Sublist (removeBucket d l) l := by
  induction l with
  | nil => exact List.Sublist.refl []
  | cons p rest ih =>
      unfold removeBucket
      by_cases hp : p.1 = d
      · rw [if_pos hp]
        exact ih.cons p
      · rw [if_neg hp]
        exact ih.cons₂ p

/-- Everything left after a bucket teardown carries a different interval. -/
theorem mem_removeBucket_ne {d : Nat} {l : List (Nat × IntervalBucket)}
    {p : Nat × IntervalBucket} (h : p ∈ removeBucket d l) : p.1 ≠ d := by
  induction l with
  | nil => cases h
  | cons q rest ih =>
      unfold removeBucket at h
      by_cases hq : q.1 = d
      · rw [if_pos hq] at h
        exact ih h
      · rw [if_neg hq] at h
        rcases List.mem_cons.mp h with rfl | h'
        · exact hq
        · exact ih h'

/-- After tearing down interval `d`, looking `d` up fails. -/
theorem findBucket_removeBucket (d : Nat) (l : List (Nat × IntervalBucket)) :
    findBucket d (removeBucket d l) = none :=
  findBucket_eq_none.mpr fun _ hp => mem_removeBucket_ne hp

/-- If interval `d` is present, replacing its bucket makes the lookup return
the replacement. -/
theorem findBucket_setBucket {d : Nat} {b : IntervalBucket} {l : List (Nat × IntervalBucket)}
    (h : findBucket d l ≠ none) : findBucket d (setBucket d b l) = some b := by
  induction l with
  | nil => exact absurd rfl h
  | cons p rest ih =>
      unfold setBucket
      by_cases hp : p.1 = d
      · rw [if_pos hp]
        unfold findBucket
        rw [if_pos rfl]
      · rw [if_neg hp]
        unfold findBucket
        rw [if_neg hp]
        apply ih
        unfold findBucket at h
        rw [if_neg hp] at h
        exact h

/-- The replaced table is never empty. -/
theorem upsertTask_ne_nil (t : SchedulerTask) (ts : List SchedulerTask) :
    upsertTask t ts ≠ [] := by
  cases ts with
  | nil => exact List.cons_ne_nil t []
  | cons u rest =>
      unfold upsertTask
      split
      · exact List.cons_ne_nil t rest
      · exact List.cons_ne_nil u (upsertTask t rest)

/-- After an upsert, looking the key up returns exactly the new entry. -/
theorem findTask_upsert_self (t : SchedulerTask) (ts : List SchedulerTask) :
    findTask t.key (upsertTask t ts) = some t := by
  induction ts with
  | nil =>
      show findTask t.key [t] = some t
      unfold findTask
      rw [if_pos rfl]
  | cons u rest ih =>
      unfold upsertTask
      by_cases h : u.key = t.key
      · rw [if_pos h]
        unfold findTask
        rw [if_pos rfl]
      · rw [if_neg h]
        unfold findTask
        rw [if_neg h]
        exact ih

/-- An entry of an upserted table is the new entry or an old one. -/
theorem mem_upsertTask {t u : SchedulerTask} {ts : List SchedulerTask}
    (h : u ∈ upsertTask t ts) : u = t ∨ u ∈ ts := by
  induction ts with
  | nil =>
      rcases List.mem_cons.mp h with rfl | h'
      · exact Or.inl rfl
      · cases h'
  | cons v rest ih =>
      unfold upsertTask at h
      by_cases hv : v.key = t.key
      · rw [if_pos hv] at h
        rcases List.mem_cons.mp h with rfl | h'
        · exact Or.inl rfl
        · exact Or.inr (List.mem_cons_of_mem v h')
      · rw [if_neg hv] at h
        rcases List.mem_cons.mp h with rfl | h'
        · exact Or.inr (List.mem_cons_self u rest)
        · rcases ih h' with h'' | h''
          · exact Or.inl h''
          · exact Or.inr (List.mem_cons_of_mem v h'')

/-- A table with no entry under `k` counts zero entries under `k`. -/
theorem countTaskKey_eq_zero {k : String} {ts : List SchedulerTask}
    (h : ∀ t ∈ ts, t.key ≠ k) : countTaskKey k ts = 0 := by
  induction ts with
  | nil => rfl
  | cons t rest ih =>
      show (if t.key = k then 1 else 0) + countTaskKey k rest = 0
      rw [if_neg (h t (List.mem_cons_self t rest)),
        ih fun u hu => h u (List.mem_cons_of_mem t hu)]

/-- On a table with no duplicate keys, an upsert leaves exactly one entry under
the upserted key. -/
theorem countTaskKey_upsert (t : SchedulerTask) (ts : List SchedulerTask)
    (h : (ts.map SchedulerTask.key).Nodup) :
    countTaskKey t.key (upsertTask t ts) = 1 := by
  induction ts with
  | nil =>
      show (if t.key = t.key then 1 else 0) + countTaskKey t.key [] = 1
      rw [if_pos rfl]
      rfl
  | cons u rest ih =>
      rw [List.map_cons, List.nodup_cons] at h
      unfold upsertTask
      by_cases hk : u.key = t.key
      · rw [if_pos hk]
        show (if t.key = t.key then 1 else 0) + countTaskKey t.key rest = 1
        rw [if_pos rfl,
          countTaskKey_eq_zero fun v hv hvk =>
            h.1 (by rw [hk, ← hvk]; exact List.mem_map_of_mem SchedulerTask.key hv)]
      · rw [if_neg hk]
        show (if u.key = t.key then 1 else 0) + countTaskKey t.key (upsertTask t rest) = 1
        rw [if_neg hk, ih h.2]

/-- An upsert keeps the no-duplicate-keys property of a task table. -/
theorem upsertTask_keys_nodup (t : SchedulerTask) (ts : List SchedulerTask)
    (h : (ts.map SchedulerTask.key).Nodup) :
    ((upsertTask t ts).map SchedulerTask.key).Nodup := by
  induction ts with
  | nil =>
      show ([t.key] : List String).Nodup
      exact List.nodup_cons.mpr ⟨fun hc => (List.not_mem_nil t.key) hc, List.nodup_nil⟩
  | cons u rest ih =>
      rw [List.map_cons, List.nodup_cons] at h
      unfold upsertTask
      by_cases hk : u.key = t.key
      · rw [if_pos hk]
        rw [List.map_cons, List.nodup_cons]
        exact ⟨hk ▸ h.1, h.2⟩
      · rw [if_neg hk]
        rw [List.map_cons, List.nodup_cons]
        refine ⟨?_, ih h.2⟩
        intro hc
        rcases List.mem_map.mp hc with ⟨v, hv, hvk⟩
        rcases mem_upsertTask hv with rfl | hv'
        · exact hk hvk.symm
        · exact h.1 (hvk ▸ List.mem_map_of_mem SchedulerTask.key hv')

/-- Removing a key yields a sublist of the task table. -/
theorem removeTask_sublist (k : String) (ts : List SchedulerTask) :
    List.Sublist (removeTask k ts) ts := by
  induction ts with
  | nil => exact List.Sublist.refl []
  | cons t rest ih =>
      unfold removeTask
      by_cases ht : t.key = k
      · rw [if_pos ht]
        exact ih.cons t
      · rw [if_neg ht]
        exact ih.cons₂ t

/-- Every entry surviving a key removal carries a different key. -/
theorem mem_removeTask_ne {k : String} {ts : List SchedulerTask} {t : SchedulerTask}
    (h : t ∈ removeTask k ts) : t.key ≠ k := by
  induction ts with
  | nil => cases h
  | cons u rest ih =>
      unfold removeTask at h
      by_cases hu : u.key = k
      · rw [if_pos hu] at h
        exact ih h
      · rw [if_neg hu] at h
        rcases List.mem_cons.mp h with rfl | h'
        · exact hu
        · exact ih h'

/-- Key membership in a task table, in terms of list membership. -/
theorem memTaskKey_eq_true_iff {k : String} {ts : List SchedulerTask} :
    memTaskKey k ts = true ↔ ∃ t ∈ ts, t.key = k := by
  induction ts with
  | nil =>
      constructor
      · intro h
        cases h
      · intro ⟨t, ht, _⟩
        cases ht
  | cons t rest ih =>
      unfold memTaskKey
      by_cases ht : t.key = k
      · rw [if_pos ht]
        exact ⟨fun _ => ⟨t, List.mem_cons_self t rest, ht⟩, fun _ => rfl⟩
      · rw [if_neg ht, ih]
        constructor
        · intro ⟨u, hu, huk⟩
          exact ⟨u, List.mem_cons_of_mem t hu, huk⟩
        · intro ⟨u, hu, huk⟩
          rcases List.mem_cons.mp hu with rfl | hu'
          · exact absurd huk ht
          · exact ⟨u, hu', huk⟩

/-- Fired-key membership splits over concatenation. -/
theorem memStr_append (k : String) (f g : List String) :
    memStr k (f ++ g) = (memStr k f || memStr k g) := by
  induction f with
  | nil => rfl
  | cons x f' ih =>
      show (if x = k then true else memStr k (f' ++ g)) =
        ((if x = k then true else memStr k f') || memStr k g)
      by_cases hx : x = k
      · rw [if_pos hx, if_pos hx]
        rfl
      · rw [if_neg hx, if_neg hx, ih]

/-- Unfolding a tick body at a task that is due and unmarked. -/
theorem fireTasks_cons_fire {now d : Nat} {t : SchedulerTask} {rest : List SchedulerTask}
    {f : List String} (hc : t.firingDate ≤ now ∧ memStr t.key f = false) :
    fireTasks now d (t :: rest) f =
      ((fireTasks now d rest (f ++ [t.key])).1,
        ({ key := t.key, intervalDelay := d, time := now } : Invocation) ::
          (fireTasks now d rest (f ++ [t.key])).2) := by
  show (if t.firingDate ≤ now ∧ memStr t.key f = false then
      ((fireTasks now d rest (f ++ [t.key])).1,
        ({ key := t.key, intervalDelay := d, time := now } : Invocation) ::
          (fireTasks now d rest (f ++ [t.key])).2)
    else fireTasks now d rest f) = _
  rw [if_pos hc]

/-- Unfolding a tick body at a task that is not due or already marked. -/
theorem fireTasks_cons_skip {now d : Nat} {t : SchedulerTask} {rest : List SchedulerTask}
    {f : List String} (hc : ¬(t.firingDate ≤ now ∧ memStr t.key f = false)) :
    fireTasks now d (t :: rest) f = fireTasks now d rest f := by
  show (if t.firingDate ≤ now ∧ memStr t.key f = false then
      ((fireTasks now d rest (f ++ [t.key])).1,
        ({ key := t.key, intervalDelay := d, time := now } : Invocation) ::
          (fireTasks now d rest (f ++ [t.key])).2)
    else fireTasks now d rest f) = _
  rw [if_neg hc]

/-- Every invocation a tick body emits carries the bucket's interval and the
tick's time, was not already marked fired, and names a key present in the
table. -/
theorem fireTasks_spec (now d : Nat) (ts : List SchedulerTask) : ∀ f : List String,
    ∀ i ∈ (fireTasks now d ts f).2,
      i.intervalDelay = d ∧ i.time = now ∧ memStr i.key f = false ∧
        memTaskKey i.key ts = true := by
  induction ts with
  | nil =>
      intro f i hi
      cases hi
  | cons t rest ih =>
      intro f i hi
      have hmem : ∀ j : Invocation, memTaskKey j.key rest = true →
          memTaskKey j.key (t :: rest) = true := by
        intro j hj
        unfold memTaskKey
        by_cases ht : t.key = j.key
        · rw [if_pos ht]
        · rw [if_neg ht]
          exact hj
      by_cases hc : t.firingDate ≤ now ∧ memStr t.key f = false
      · rw [fireTasks_cons_fire hc] at hi
        rcases List.mem_cons.mp hi with rfl | hi'
        · refine ⟨rfl, rfl, hc.2, ?_⟩
          show memTaskKey t.key (t :: rest) = true
          unfold memTaskKey
          rw [if_pos rfl]
        · obtain ⟨h1, h2, h3, h4⟩ := ih (f ++ [t.key]) i hi'
          rw [memStr_append] at h3
          exact ⟨h1, h2, (Bool.or_eq_false_iff.mp h3).1, hmem i h4⟩
      · rw [fireTasks_cons_skip hc] at hi
        obtain ⟨h1, h2, h3, h4⟩ := ih f i hi
        exact ⟨h1, h2, h3, hmem i h4⟩

/-- Within one tick of one bucket, all emitted invocations carry pairwise
distinct keys: the fired-marker prevents a key from firing twice in a tick. -/
theorem fireTasks_pairwise_keys (now d : Nat) (ts : List SchedulerTask) :
    ∀ f : List String,
    (fireTasks now d ts f).2.Pairwise fun i j => i.key ≠ j.key := by
  induction ts with
  | nil =>
      intro f
      exact List.Pairwise.nil
  | cons t rest ih =>
      intro f
      by_cases hc : t.firingDate ≤ now ∧ memStr t.key f = false
      · rw [fireTasks_cons_fire hc]
        refine List.Pairwise.cons ?_ (ih (f ++ [t.key]))
        intro j hj
        have h3 := (fireTasks_spec now d rest (f ++ [t.key]) j hj).2.2.1
        rw [memStr_append] at h3
        have h4 := (Bool.or_eq_false_iff.mp h3).2
        intro hkey
        show False
        unfold memStr at h4
        rw [if_pos hkey] at h4
        exact Bool.noConfusion h4
      · rw [fireTasks_cons_skip hc]
        exact ih f

/-- A bucket step never changes the task table. -/
theorem stepBucket_tasks (now : Nat) (p : Nat × IntervalBucket) :
    (stepBucket now p).1.2.tasks = p.2.tasks := by
  unfold stepBucket
  split <;> rfl

/-- The timer of a stepped bucket: re-armed one period later on a tick,
untouched otherwise. -/
theorem stepBucket_nextTick (now : Nat) (p : Nat × IntervalBucket) :
    (stepBucket now p).1.2.nextTick =
      if p.2.nextTick = now then now + p.1 else p.2.nextTick := by
  by_cases hm : p.2.nextTick = now
  · rw [if_pos hm]
    unfold stepBucket
    rw [if_pos hm]
    show p.2.nextTick + p.1 = now + p.1
    rw [hm]
  · rw [if_neg hm]
    unfold stepBucket
    rw [if_neg hm]

/-- Invocations emitted by a bucket step: the bucket was due, and each carries
the bucket's interval, the tick time, and a key present in its table. -/
theorem stepBucket_entries {now : Nat} {p : Nat × IntervalBucket} {i : Invocation}
    (h : i ∈ (stepBucket now p).2) :
    p.2.nextTick = now ∧ i.intervalDelay = p.1 ∧ i.time = now ∧
      memTaskKey i.key p.2.tasks = true := by
  by_cases hm : p.2.nextTick = now
  · unfold stepBucket at h
    rw [if_pos hm] at h
    obtain ⟨h1, h2, _, h4⟩ := fireTasks_spec now p.1 p.2.tasks p.2.firedKeys i h
    exact ⟨hm, h1, h2, h4⟩
  · unfold stepBucket at h
    rw [if_neg hm] at h
    cases h

/-- A millisecond step never changes the interval-key sequence of the bucket
list: ticks neither create nor destroy timers. -/
theorem stepMs_buckets_fst (s : SchedulerState) :
    (stepMs s).buckets.map Prod.fst = s.buckets.map Prod.fst := by
  show ((s.buckets.map fun p => (stepBucket (s.now + 1) p).1).map Prod.fst) = _
  rw [List.map_map]
  exact List.map_congr_left fun p _ => stepBucket_fst (s.now + 1) p

/-- Each entry of the log after a millisecond step is an old entry or was
emitted by the step of one of the buckets. -/
theorem mem_stepMs_log {s : SchedulerState} {i : Invocation} (h : i ∈ (stepMs s).log) :
    i ∈ s.log ∨ ∃ p ∈ s.buckets, i ∈ (stepBucket (s.now + 1) p).2 := by
  rcases List.mem_append.mp h with h' | h'
  · exact Or.inl h'
  · right
    rcases List.mem_flatten.mp h' with ⟨x, hx, hix⟩
    rcases List.mem_map.mp hx with ⟨p, hp, rfl⟩
    exact ⟨p, hp, hix⟩

/-- Each bucket after a millisecond step is a stepped old bucket. -/
theorem mem_stepMs_buckets {s : SchedulerState} {q : Nat × IntervalBucket}
    (h : q ∈ (stepMs s).buckets) : ∃ p ∈ s.buckets, (stepBucket (s.now + 1) p).1 = q := by
  rcases List.mem_map.mp h with ⟨p, hp, he⟩
  exact ⟨p, hp, he⟩

/-- Unfolding `addTask` when no bucket for the interval exists yet. -/
theorem addTask_eq_new {k : String} {fd d : Nat} {ok : Bool} {s : SchedulerState}
    (h : findBucket d s.buckets = none) :
    addTask k fd d ok s =
      { s with buckets := s.buckets ++ [(d, ⟨[⟨k, fd, ok⟩], [], s.now + d⟩)] } := by
  unfold addTask
  rw [h]

/-- Unfolding `addTask` when the interval's bucket already exists. -/
theorem addTask_eq_join {k : String} {fd d : Nat} {ok : Bool} {s : SchedulerState}
    {b : IntervalBucket} (h : findBucket d s.buckets = some b) :
    addTask k fd d ok s =
      { s with
        buckets :=
          setBucket d { b with tasks := upsertTask ⟨k, fd, ok⟩ b.tasks } s.buckets } := by
  unfold addTask
  rw [h]

/-- Unfolding `cancelTask` when the interval has no bucket: a no-op. -/
theorem cancelTask_eq_noop {k : String} {d : Nat} {s : SchedulerState}
    (h : findBucket d s.buckets = none) : cancelTask k d s = s := by
  unfold cancelTask
  rw [h]

/-- Unfolding `cancelTask` when removing the key empties the bucket: the
bucket and its timer are torn down. -/
theorem cancelTask_eq_teardown {k : String} {d : Nat} {s : SchedulerState}
    {b : IntervalBucket} (h : findBucket d s.buckets = some b)
    (h2 : removeTask k b.tasks = []) :
    cancelTask k d s = { s with buckets := removeBucket d s.buckets } := by
  unfold cancelTask
  rw [h]
  show (if removeTask k b.tasks = [] then
      { s with buckets := removeBucket d s.buckets }
    else
      { s with
        buckets :=
          setBucket d
            { b with
                tasks := removeTask k b.tasks
                firedKeys := removeKey k b.firedKeys }
            s.buckets }) = _
  rw [if_pos h2]

/-- Unfolding `cancelTask` when tasks remain in the bucket after the removal:
the bucket is kept and its timer keeps running. -/
theorem cancelTask_eq_shrink {k : String} {d : Nat} {s : SchedulerState}
    {b : IntervalBucket} (h : findBucket d s.buckets = some b)
    (h2 : removeTask k b.tasks ≠ []) :
    cancelTask k d s =
      { s with
        buckets :=
          setBucket d
            { b with
                tasks := removeTask k b.tasks
                firedKeys := removeKey k b.firedKeys }
            s.buckets } := by
  unfold cancelTask
  rw [h]
  show (if removeTask k b.tasks = [] then
      { s with buckets := removeBucket d s.buckets }
    else
      { s with
        buckets :=
          setBucket d
            { b with
                tasks := removeTask k b.tasks
                firedKeys := removeKey k b.firedKeys }
            s.buckets }) = _
  rw [if_neg h2]

/-- The state invariant maintained by every scheduler operation: at most one
bucket (timer) per interval; no duplicate keys inside a bucket; buckets are
never empty; log times never exceed the clock; every bucket's next tick lies a
full period after any logged invocation of its interval; and the log is
chronologically spaced — two same-key same-interval invocations are at least
one period apart. -/
structure Inv (s : SchedulerState) : Prop where
  dNodup : (s.buckets.map Prod.fst).Nodup
  tNodup : ∀ p ∈ s.buckets, ((p.2.tasks).map SchedulerTask.key).Nodup
  tNonempty : ∀ p ∈ s.buckets, p.2.tasks ≠ []
  logPast : ∀ i ∈ s.log, i.time ≤ s.now
  bucketGap : ∀ p ∈ s.buckets, ∀ i ∈ s.log, i.intervalDelay = p.1 →
    i.time + p.1 ≤ p.2.nextTick
  spaced : s.log.Pairwise fun i j =>
    i.key = j.key → i.intervalDelay = j.intervalDelay →
      i.time + i.intervalDelay ≤ j.time

/-- The empty initial state satisfies the invariant. -/
theorem inv_init : Inv initState :=
  ⟨List.nodup_nil, fun _ hp => absurd hp (List.not_mem_nil _),
    fun _ hp => absurd hp (List.not_mem_nil _),
    fun _ hi => absurd hi (List.not_mem_nil _),
    fun _ hp => absurd hp (List.not_mem_nil _), List.Pairwise.nil⟩

/-- Registering a task preserves the invariant. -/
theorem inv_addTask {s : SchedulerState} (k : String) (fd d : Nat) (ok : Bool)
    (h : Inv s) : Inv (addTask k fd d ok s) := by
  cases hfb : findBucket d s.buckets with
  | none =>
      rw [addTask_eq_new hfb]
      have hnd : ∀ p ∈ s.buckets, p.1 ≠ d := findBucket_eq_none.mp hfb
      constructor
      · show ((s.buckets ++
          [(d, (⟨[⟨k, fd, ok⟩], [], s.now + d⟩ : IntervalBucket))]).map Prod.fst).Nodup
        rw [List.map_append]
        rw [List.nodup_append]
        refine ⟨h.dNodup, ?_, ?_⟩
        · exact List.nodup_cons.mpr ⟨List.not_mem_nil d, List.nodup_nil⟩
        · intro a ha hb
          rcases List.mem_map.mp ha with ⟨p, hp, rfl⟩
          rcases List.mem_cons.mp hb with he | he
          · exact hnd p hp he
          · exact absurd he (List.not_mem_nil _)
      · intro p hp
        rcases List.mem_append.mp hp with hp' | hp'
        · exact h.tNodup p hp'
        · rcases List.mem_cons.mp hp' with rfl | hp''
          · show (([⟨k, fd, ok⟩] : List SchedulerTask).map SchedulerTask.key).Nodup
            exact List.nodup_cons.mpr ⟨List.not_mem_nil _, List.nodup_nil⟩
          · exact absurd hp'' (List.not_mem_nil _)
      · intro p hp
        rcases List.mem_append.mp hp with hp' | hp'
        · exact h.tNonempty p hp'
        · rcases List.mem_cons.mp hp' with rfl | hp''
          · exact List.cons_ne_nil _ _
          · exact absurd hp'' (List.not_mem_nil _)
      · exact h.logPast
      · intro p hp i hi hid
        rcases List.mem_append.mp hp with hp' | hp'
        · exact h.bucketGap p hp' i hi hid
        · rcases List.mem_cons.mp hp' with rfl | hp''
          · show i.time + d ≤ s.now + d
            have := h.logPast i hi
            omega
          · exact absurd hp'' (List.not_mem_nil _)
      · exact h.spaced
  | some b =>
      rw [addTask_eq_join hfb]
      have hbmem : (d, b) ∈ s.buckets := findBucket_mem hfb
      constructor
      · show ((setBucket d _ s.buckets).map Prod.fst).Nodup
        rw [setBucket_map_fst]
        exact h.dNodup
      · intro p hp
        rcases mem_setBucket hp with rfl | hp'
        · exact upsertTask_keys_nodup ⟨k, fd, ok⟩ b.tasks (h.tNodup (d, b) hbmem)
        · exact h.tNodup p hp'
      · intro p hp
        rcases mem_setBucket hp with rfl | hp'
        · exact upsertTask_ne_nil _ _
        · exact h.tNonempty p hp'
      · exact h.logPast
      · intro p hp i hi hid
        rcases mem_setBucket hp with rfl | hp'
        · exact h.bucketGap (d, b) hbmem i hi hid
        · exact h.bucketGap p hp' i hi hid
      · exact h.spaced

/-- Cancelling a task preserves the invariant. -/
theorem inv_cancelTask {s : SchedulerState} (k : String) (d : Nat)
    (h : Inv s) : Inv (cancelTask k d s) := by
  cases hfb : findBucket d s.buckets with
  | none =>
      rw [cancelTask_eq_noop hfb]
      exact h
  | some b =>
      by_cases hts : removeTask k b.tasks = []
      · rw [cancelTask_eq_teardown hfb hts]
        have hsub := removeBucket_sublist d s.buckets
        constructor
        · exact h.dNodup.sublist (hsub.map Prod.fst)
        · intro p hp
          exact h.tNodup p (hsub.subset hp)
        · intro p hp
          exact h.tNonempty p (hsub.subset hp)
        · exact h.logPast
        · intro p hp i hi hid
          exact h.bucketGap p (hsub.subset hp) i hi hid
        · exact h.spaced
      · rw [cancelTask_eq_shrink hfb hts]
        have hbmem : (d, b) ∈ s.buckets := findBucket_mem hfb
        constructor
        · show ((setBucket d _ s.buckets).map Prod.fst).Nodup
          rw [setBucket_map_fst]
          exact h.dNodup
        · intro p hp
          rcases mem_setBucket hp with rfl | hp'
          · exact (h.tNodup (d, b) hbmem).sublist
              ((removeTask_sublist k b.tasks).map SchedulerTask.key)
          · exact h.tNodup p hp'
        · intro p hp
          rcases mem_setBucket hp with rfl | hp'
          · exact hts
          · exact h.tNonempty p hp'
        · exact h.logPast
        · intro p hp i hi hid
          rcases mem_setBucket hp with rfl | hp'
          · exact h.bucketGap (d, b) hbmem i hi hid
          · exact h.bucketGap p hp' i hi hid
        · exact h.spaced

/-- A millisecond step preserves the invariant. -/
theorem inv_stepMs {s : SchedulerState} (h : Inv s) : Inv (stepMs s) := by
  have hpw : s.buckets.Pairwise fun p q => p.1 ≠ q.1 :=
    List.pairwise_map.mp h.dNodup
  constructor
  · rw [stepMs_buckets_fst]
    exact h.dNodup
  · intro q hq
    rcases mem_stepMs_buckets hq with ⟨p, hp, rfl⟩
    rw [stepBucket_tasks]
    exact h.tNodup p hp
  · intro q hq
    rcases mem_stepMs_buckets hq with ⟨p, hp, rfl⟩
    rw [stepBucket_tasks]
    exact h.tNonempty p hp
  · intro i hi
    show i.time ≤ s.now + 1
    rcases mem_stepMs_log hi with h' | ⟨p, hp, h'⟩
    · have := h.logPast i h'
      omega
    · have := (stepBucket_entries h').2.2.1
      omega
  · intro q hq i hi
    rcases mem_stepMs_buckets hq with ⟨p, hp, rfl⟩
    rw [stepBucket_fst, stepBucket_nextTick]
    intro hid
    rcases mem_stepMs_log hi with h' | ⟨p', hp', h'⟩
    · have hg := h.bucketGap p hp i h' hid
      by_cases hm : p.2.nextTick = s.now + 1
      · rw [if_pos hm]
        omega
      · rw [if_neg hm]
        exact hg
    · obtain ⟨hm', hd', ht', _⟩ := stepBucket_entries h'
      have hpp : p = p' :=
        List.inj_on_of_nodup_map h.dNodup hp hp' (hid.symm.trans hd')
      subst hpp
      rw [if_pos hm', ht']
  · show ((s.log ++ (s.buckets.map fun p =>
      (stepBucket (s.now + 1) p).2).flatten).Pairwise _)
    rw [List.pairwise_append]
    refine ⟨h.spaced, ?_, ?_⟩
    · rw [List.pairwise_flatten]
      constructor
      · intro l hl
        rcases List.mem_map.mp hl with ⟨p, hp, rfl⟩
        by_cases hm : p.2.nextTick = s.now + 1
        · have he : (stepBucket (s.now + 1) p).2 =
              (fireTasks (s.now + 1) p.1 p.2.tasks p.2.firedKeys).2 := by
            unfold stepBucket
            rw [if_pos hm]
          rw [he]
          exact (fireTasks_pairwise_keys (s.now + 1) p.1 p.2.tasks p.2.firedKeys).imp
            fun hne hkey _ => absurd hkey hne
        · have he : (stepBucket (s.now + 1) p).2 = ([] : List Invocation) := by
            unfold stepBucket
            rw [if_neg hm]
          rw [he]
          exact List.Pairwise.nil
      · rw [List.pairwise_map]
        refine hpw.imp ?_
        intro p q hne a ha b hb hkey hdel
        have hda := (stepBucket_entries ha).2.1
        have hdb := (stepBucket_entries hb).2.1
        exact absurd (hda.symm.trans (hdel.trans hdb)) hne
    · intro a ha b hb hkey hdel
      rcases List.mem_flatten.mp hb with ⟨x, hx, hbx⟩
      rcases List.mem_map.mp hx with ⟨p, hp, rfl⟩
      obtain ⟨hm', hdp, htb, _⟩ := stepBucket_entries hbx
      have hga := h.bucketGap p hp a ha (hdel.trans hdp)
      rw [hdel.trans hdp, htb]
      omega

/-- Every reachable state satisfies the invariant. -/
theorem reachable_inv {s : SchedulerState} (h : Reachable s) : Inv s := by
  induction h with
  | init => exact inv_init
  | add k fd d ok _ ih => exact inv_addTask k fd d ok ih
  | cancel k d _ ih => exact inv_cancelTask k d ih
  | step _ ih => exact inv_stepMs ih

/-- Reachability is closed under letting time pass. -/
theorem reachable_advance {s : SchedulerState} (h : Reachable s) (n : Nat) :
    Reachable (advance n s) := by
  induction n generalizing s with
  | zero => exact h
  | succ n ih => exact ih (Reachable.step h)

/-- With no duplicate intervals, membership determines the lookup. -/
theorem findBucket_of_mem_nodup {l : List (Nat × IntervalBucket)}
    {p : Nat × IntervalBucket} (hnd : (l.map Prod.fst).Nodup) (hp : p ∈ l) :
    findBucket p.1 l = some p.2 := by
  induction l with
  | nil => cases hp
  | cons q rest ih =>
      rw [List.map_cons, List.nodup_cons] at hnd
      unfold findBucket
      rcases List.mem_cons.mp hp with rfl | hp'
      · rw [if_pos rfl]
      · by_cases hq : q.1 = p.1
        · exact absurd (hq ▸ List.mem_map_of_mem Prod.fst hp') hnd.1
        · rw [if_neg hq]
          exact ih hnd.2 hp'

/-- A log with no matching entry counts zero. -/
theorem countKD_eq_zero {k : String} {d : Nat} {l : List Invocation}
    (h : ∀ i ∈ l, ¬(i.key = k ∧ i.intervalDelay = d)) : countKD k d l = 0 := by
  induction l with
  | nil => rfl
  | cons i rest ih =>
      show (if i.key = k ∧ i.intervalDelay = d then 1 else 0) + countKD k d rest = 0
      rw [if_neg (h i (List.mem_cons_self i rest)),
        ih fun j hj => h j (List.mem_cons_of_mem i hj)]

/-- Removing a key removes it from the key-membership view of the table. -/
theorem memTaskKey_removeTask (k : String) (ts : List SchedulerTask) :
    memTaskKey k (removeTask k ts) = false := by
  cases hb : memTaskKey k (removeTask k ts) with
  | false => rfl
  | true =>
      obtain ⟨t, ht, htk⟩ := memTaskKey_eq_true_iff.mp hb
      exact absurd htk (mem_removeTask_ne ht)

/-- A bucket found after all buckets stepped comes from a bucket found before,
with the identical task table. -/
theorem findBucket_map_step {now d : Nat} {l : List (Nat × IntervalBucket)}
    {b : IntervalBucket}
    (h : findBucket d (l.map fun p => (stepBucket now p).1) = some b) :
    ∃ b0, findBucket d l = some b0 ∧ b.tasks = b0.tasks := by
  induction l with
  | nil => cases h
  | cons p rest ih =>
      rw [List.map_cons] at h
      unfold findBucket at h ⊢
      by_cases hp : p.1 = d
      · rw [if_pos hp]
        rw [if_pos (by rw [stepBucket_fst]; exact hp)] at h
        injection h with h
        exact ⟨p.2, rfl, by rw [← h, stepBucket_tasks]⟩
      · rw [if_neg hp]
        rw [if_neg (by rw [stepBucket_fst]; exact hp)] at h
        exact ih h

/-- If interval `d` has no bucket containing key `k`, a millisecond step logs
no invocation of `(k, d)` — together with uniqueness of the `d` bucket. -/
theorem countKD_stepMs {x : SchedulerState} {k : String} {d : Nat}
    (hnd : (x.buckets.map Prod.fst).Nodup)
    (hnt : ∀ b, findBucket d x.buckets = some b → memTaskKey k b.tasks = false) :
    countKD k d (stepMs x).log = countKD k d x.log := by
  show countKD k d (x.log ++
    (x.buckets.map fun p => (stepBucket (x.now + 1) p).2).flatten) = _
  rw [countKD_append]
  have hz : countKD k d
      ((x.buckets.map fun p => (stepBucket (x.now + 1) p).2).flatten) = 0 := by
    apply countKD_eq_zero
    intro i hi
    rcases List.mem_flatten.mp hi with ⟨y, hy, hiy⟩
    rcases List.mem_map.mp hy with ⟨p, hp, rfl⟩
    obtain ⟨_, hdp, _, hkey⟩ := stepBucket_entries hiy
    intro hc
    have hpd : p.1 = d := by rw [← hdp, hc.2]
    have hfb : findBucket d x.buckets = some p.2 := by
      rw [← hpd]
      exact findBucket_of_mem_nodup hnd hp
    have hfalse := hnt p.2 hfb
    rw [hc.1] at hkey
    rw [hfalse] at hkey
    exact Bool.noConfusion hkey
  rw [hz]
  omega

/-- Appending a fresh bucket for an absent interval makes its lookup succeed
with the fresh bucket. -/
theorem findBucket_append_fresh {d : Nat} {l : List (Nat × IntervalBucket)}
    (h : findBucket d l = none) (b : IntervalBucket) :
    findBucket d (l ++ [(d, b)]) = some b := by
  induction l with
  | nil =>
      show findBucket d [(d, b)] = some b
      unfold findBucket
      rw [if_pos rfl]
  | cons p rest ih =>
      rw [List.cons_append]
      unfold findBucket at h ⊢
      by_cases hp : p.1 = d
      · rw [if_pos hp] at h
        cases h
      · rw [if_neg hp] at h ⊢
        exact ih h

/-- A window-filtered count over entries all outside the window is zero. -/
theorem countWindow_eq_zero {k : String} {d t : Nat} {l : List Invocation}
    (h : ∀ i ∈ l, ¬(i.key = k ∧ i.intervalDelay = d ∧ t ≤ i.time ∧ i.time < t + d)) :
    countWindow k d t l = 0 := by
  induction l with
  | nil => rfl
  | cons i rest ih =>
      show (if i.key = k ∧ i.intervalDelay = d ∧ t ≤ i.time ∧ i.time < t + d
        then 1 else 0) + countWindow k d t rest = 0
      rw [if_neg (h i (List.mem_cons_self i rest)),
        ih fun j hj => h j (List.mem_cons_of_mem i hj)]

/-- A chronologically spaced log has at most one matching entry per half-open
window of one period. -/
theorem countWindow_le_one_of_spaced {k : String} {d t : Nat} {l : List Invocation}
    (h : l.Pairwise fun i j => i.key = j.key → i.intervalDelay = j.intervalDelay →
      i.time + i.intervalDelay ≤ j.time) :
    countWindow k d t l ≤ 1 := by
  induction l with
  | nil => exact Nat.zero_le 1
  | cons i rest ih =>
      have hp := List.pairwise_cons.mp h
      show (if i.key = k ∧ i.intervalDelay = d ∧ t ≤ i.time ∧ i.time < t + d
        then 1 else 0) + countWindow k d t rest ≤ 1
      by_cases hc : i.key = k ∧ i.intervalDelay = d ∧ t ≤ i.time ∧ i.time < t + d
      · rw [if_pos hc]
        have hz : countWindow k d t rest = 0 := by
          apply countWindow_eq_zero
          intro j hj hcj
          have := hp.1 j hj (hc.1.trans hcj.1.symm) (hc.2.1.trans hcj.2.1.symm)
          rw [hc.2.1] at this
          omega
        omega
      · rw [if_neg hc]
        have := ih hp.2
        omega

/-- After a state with no interval-`d` task keyed `k` (and unique buckets),
any amount of elapsed time adds no `(k, d)` invocation. -/
theorem countKD_advance_of_no_task {k : String} {d : Nat} (n : Nat)
    (x : SchedulerState) (hnd : (x.buckets.map Prod.fst).Nodup)
    (hnt : ∀ b, findBucket d x.buckets = some b → memTaskKey k b.tasks = false) :
    countKD k d (advance n x).log = countKD k d x.log := by
  induction n generalizing x with
  | zero => rfl
  | succ n ih =>
      have hnd' : ((stepMs x).buckets.map Prod.fst).Nodup := by
        rw [stepMs_buckets_fst]
        exact hnd
      have hnt' : ∀ b, findBucket d (stepMs x).buckets = some b →
          memTaskKey k b.tasks = false := by
        intro b hb
        rcases findBucket_map_step hb with ⟨b0, hb0, hbt⟩
        rw [hbt]
        exact hnt b0 hb0
      show countKD k d (advance n (stepMs x)).log = _
      rw [ih (stepMs x) hnd' hnt', countKD_stepMs hnd hnt]

/-- Whatever `cancelTask k d` leaves behind for interval `d` contains no task
keyed `k`. -/
theorem cancel_removes_key {s : SchedulerState} (k : String) (d : Nat) :
    ∀ b, findBucket d (cancelTask k d s).buckets = some b →
      memTaskKey k b.tasks = false := by
  intro b hb
  cases hfb : findBucket d s.buckets with
  | none =>
      rw [cancelTask_eq_noop hfb] at hb
      rw [hfb] at hb
      cases hb
  | some b0 =>
      by_cases hts : removeTask k b0.tasks = []
      · rw [cancelTask_eq_teardown hfb hts] at hb
        have hb' : findBucket d (removeBucket d s.buckets) = some b := hb
        rw [findBucket_removeBucket] at hb'
        cases hb'
      · rw [cancelTask_eq_shrink hfb hts] at hb
        have hb' : findBucket d (setBucket d
            { b0 with
                tasks := removeTask k b0.tasks
                firedKeys := removeKey k b0.firedKeys }
            s.buckets) = some b := hb
        rw [findBucket_setBucket
          (fun hc => by rw [hfb] at hc; exact Option.noConfusion hc)] at hb'
        injection hb' with hb'
        rw [← hb']
        exact memTaskKey_removeTask k b0.tasks

/-- C2: a task is never invoked more than once within a single firing window
of its interval: in every reachable state, for every key, interval, and window
start, the log holds at most one matching invocation inside the half-open
window `[t, t + d)`.  This follows from the chronological-spacing invariant:
two same-key same-interval invocations are at least one period apart. -/
theorem C2_at_most_once_per_window (s : SchedulerState) (h : Reachable s)
    (k : String) (d t : Nat) : countWindow k d t s.log ≤ 1 :=
  countWindow_le_one_of_spaced (reachable_inv h).spaced

/-- Witness for C2 on the concrete one-task run of the test suite. -/
theorem C2_at_most_once_per_window_witness :
    countWindow "test-key" 1000 0
      (advance 1001 (addTask "test-key" 0 1000 true initState)).log ≤ 1 :=
  C2_at_most_once_per_window _
    (reachable_advance (Reachable.add "test-key" 0 1000 true Reachable.init) 1001)
    "test-key" 1000 0

/-- C4: cancellation is immediate with respect to future ticks.  From any
reachable state, after `cancelTask k d` no amount of elapsed time adds an
invocation of `(k, d)`; and on the repository's cancel scenario — `k5` added
at time 0 with interval 4000, `k6` added at 1000, `k5` cancelled, then
4001 ms — `k5` is never invoked while its sibling `k6` is. -/
theorem C4_cancel_prevents_future_invocations (s : SchedulerState)
    (h : Reachable s) (k : String) (d : Nat) (n : Nat) :
    (countKD k d (advance n (cancelTask k d s)).log =
      countKD k d (cancelTask k d s).log) ∧
    (countKD "k5" 4000 (advance 4001 (cancelTask "k5" 4000 (addTask "k6" 0 4000 true
        (advance 1000 (addTask "k5" 0 4000 true initState))))).log = 0 ∧
      1 ≤ countKD "k6" 4000 (advance 4001 (cancelTask "k5" 4000 (addTask "k6" 0 4000 true
        (advance 1000 (addTask "k5" 0 4000 true initState))))).log) := by
  constructor
  · exact countKD_advance_of_no_task n _
      (inv_cancelTask k d (reachable_inv h)).dNodup
      (cancel_removes_key k d)
  · have c0 : addTask "k5" 0 4000 true initState =
        (⟨0, [(4000, ⟨[⟨"k5", 0, true⟩], [], 4000⟩)], []⟩ : SchedulerState) := by decide
    have c1 : advance 1000 (⟨0, [(4000, ⟨[⟨"k5", 0, true⟩], [], 4000⟩)], []⟩ : SchedulerState) =
        (⟨1000, [(4000, ⟨[⟨"k5", 0, true⟩], [], 4000⟩)], []⟩ : SchedulerState) :=
      (advance_idle (by decide)).trans (by decide)
    have c2 : addTask "k6" 0 4000 true
        (⟨1000, [(4000, ⟨[⟨"k5", 0, true⟩], [], 4000⟩)], []⟩ : SchedulerState) =
        (⟨1000, [(4000, ⟨[⟨"k5", 0, true⟩, ⟨"k6", 0, true⟩], [], 4000⟩)], []⟩ :
          SchedulerState) := by decide
    have c3 : cancelTask "k5" 4000
        (⟨1000, [(4000, ⟨[⟨"k5", 0, true⟩, ⟨"k6", 0, true⟩], [], 4000⟩)], []⟩ :
          SchedulerState) =
        (⟨1000, [(4000, ⟨[⟨"k6", 0, true⟩], [], 4000⟩)], []⟩ : SchedulerState) := by decide
    have c4 : advance 2999 (⟨1000, [(4000, ⟨[⟨"k6", 0, true⟩], [], 4000⟩)], []⟩ :
        SchedulerState) =
        (⟨3999, [(4000, ⟨[⟨"k6", 0, true⟩], [], 4000⟩)], []⟩ : SchedulerState) :=
      (advance_idle (by decide)).trans (by decide)
    have c5 : stepMs (⟨3999, [(4000, ⟨[⟨"k6", 0, true⟩], [], 4000⟩)], []⟩ : SchedulerState) =
        (⟨4000, [(4000, ⟨[⟨"k6", 0, true⟩], ["k6"], 8000⟩)],
          [⟨"k6", 4000, 4000⟩]⟩ : SchedulerState) := by decide
    have c6 : advance 1001 (⟨4000, [(4000, ⟨[⟨"k6", 0, true⟩], ["k6"], 8000⟩)],
        [⟨"k6", 4000, 4000⟩]⟩ : SchedulerState) =
        (⟨5001, [(4000, ⟨[⟨"k6", 0, true⟩], ["k6"], 8000⟩)],
          [⟨"k6", 4000, 4000⟩]⟩ : SchedulerState) :=
      (advance_idle (by decide)).trans (by decide)
    have hS : advance 4001 (cancelTask "k5" 4000 (addTask "k6" 0 4000 true
        (advance 1000 (addTask "k5" 0 4000 true initState)))) =
        (⟨5001, [(4000, ⟨[⟨"k6", 0, true⟩], ["k6"], 8000⟩)],
          [⟨"k6", 4000, 4000⟩]⟩ : SchedulerState) := by
      rw [c0, c1, c2, c3, advance_split 3000 1001 4001 (by norm_num),
        advance_split 2999 1 3000 (by norm_num), c4]
      show advance 1001 (stepMs
        (⟨3999, [(4000, ⟨[⟨"k6", 0, true⟩], [], 4000⟩)], []⟩ : SchedulerState)) = _
      rw [c5, c6]
    rw [hS]
    exact ⟨by decide, by decide⟩

/-- Witness for C4 at a concrete reachable state (empty scheduler, arbitrary
cancel, three elapsed milliseconds). -/
theorem C4_cancel_prevents_future_invocations_witness :
    (countKD "z" 7 (advance 3 (cancelTask "z" 7 initState)).log =
      countKD "z" 7 (cancelTask "z" 7 initState).log) ∧
    (countKD "k5" 4000 (advance 4001 (cancelTask "k5" 4000 (addTask "k6" 0 4000 true
        (advance 1000 (addTask "k5" 0 4000 true initState))))).log = 0 ∧
      1 ≤ countKD "k6" 4000 (advance 4001 (cancelTask "k5" 4000 (addTask "k6" 0 4000 true
        (advance 1000 (addTask "k5" 0 4000 true initState))))).log) :=
  C4_cancel_prevents_future_invocations initState Reachable.init "z" 7 3

/-- C5: the bucket lifecycle.  In every reachable state the bucket list holds
at most one bucket (one shared timer) per interval; an `addTask` for an absent
interval creates its bucket, armed one period ahead; a `cancelTask` destroys
the interval's bucket exactly when it removes the last task; and a millisecond
tick neither creates nor destroys buckets. -/
theorem C5_one_timer_per_interval_lifecycle (s : SchedulerState)
    (h : Reachable s) (k : String) (fd d : Nat) (ok : Bool) :
    (s.buckets.map Prod.fst).Nodup ∧
    (findBucket d s.buckets = none →
      findBucket d (addTask k fd d ok s).buckets =
        some ⟨[⟨k, fd, ok⟩], [], s.now + d⟩) ∧
    (findBucket d (cancelTask k d s).buckets = none ↔
      (findBucket d s.buckets = none ∨
        ∃ b, findBucket d s.buckets = some b ∧ removeTask k b.tasks = [])) ∧
    (stepMs s).buckets.map Prod.fst = s.buckets.map Prod.fst := by
  refine ⟨(reachable_inv h).dNodup, ?_, ⟨?_, ?_⟩, stepMs_buckets_fst s⟩
  · intro hfb
    rw [addTask_eq_new hfb]
    exact findBucket_append_fresh hfb _
  · intro hcan
    cases hfb : findBucket d s.buckets with
    | none => exact Or.inl rfl
    | some b0 =>
        by_cases hts : removeTask k b0.tasks = []
        · exact Or.inr ⟨b0, rfl, hts⟩
        · exfalso
          rw [cancelTask_eq_shrink hfb hts] at hcan
          have hcan' : findBucket d (setBucket d
              { b0 with
                  tasks := removeTask k b0.tasks
                  firedKeys := removeKey k b0.firedKeys }
              s.buckets) = none := hcan
          rw [findBucket_setBucket
            (fun hc => by rw [hfb] at hc; exact Option.noConfusion hc)] at hcan'
          exact Option.noConfusion hcan'
  · intro hcase
    rcases hcase with hfb | ⟨b0, hfb, hts⟩
    · rw [cancelTask_eq_noop hfb]
      exact hfb
    · rw [cancelTask_eq_teardown hfb hts]
      exact findBucket_removeBucket d s.buckets

/-- Witness for C5 on the empty scheduler. -/
theorem C5_one_timer_per_interval_lifecycle_witness :
    ((initState.buckets.map Prod.fst).Nodup ∧
    (findBucket 5 initState.buckets = none →
      findBucket 5 (addTask "a" 0 5 true initState).buckets =
        some ⟨[⟨"a", 0, true⟩], [], initState.now + 5⟩) ∧
    (findBucket 5 (cancelTask "a" 5 initState).buckets = none ↔
      (findBucket 5 initState.buckets = none ∨
        ∃ b, findBucket 5 initState.buckets = some b ∧ removeTask "a" b.tasks = [])) ∧
    (stepMs initState).buckets.map Prod.fst = initState.buckets.map Prod.fst) :=
  C5_one_timer_per_interval_lifecycle initState Reachable.init "a" 0 5 true

/-- C6: re-registering a key already present in its interval bucket replaces
the previous entry (last write wins): afterwards the bucket holds exactly one
entry under that key, equal to the later registration; `addTask` is total, so
no error is raised for the duplicate key. -/
theorem C6_duplicate_key_last_write_wins (s : SchedulerState) (h : Reachable s)
    (k : String) (fd d : Nat) (ok : Bool) (b : IntervalBucket)
    (hb : findBucket d s.buckets = some b) (hk : memTaskKey k b.tasks = true) :
    ∃ b', findBucket d (addTask k fd d ok s).buckets = some b' ∧
      findTask k b'.tasks = some ⟨k, fd, ok⟩ ∧
      countTaskKey k b'.tasks = 1 := by
  rw [addTask_eq_join hb]
  refine ⟨{ b with tasks := upsertTask ⟨k, fd, ok⟩ b.tasks }, ?_, ?_, ?_⟩
  · exact findBucket_setBucket
      (fun hc => by rw [hb] at hc; exact Option.noConfusion hc)
  · exact findTask_upsert_self ⟨k, fd, ok⟩ b.tasks
  · exact countTaskKey_upsert ⟨k, fd, ok⟩ b.tasks
      ((reachable_inv h).tNodup (d, b) (findBucket_mem hb))

/-- Witness for C6: re-registering key `a` with a new firing date in its
existing interval-5 bucket. -/
theorem C6_duplicate_key_last_write_wins_witness :
    ∃ b', findBucket 5 (addTask "a" 7 5 false (addTask "a" 0 5 true initState)).buckets =
        some b' ∧
      findTask "a" b'.tasks = some ⟨"a", 7, false⟩ ∧
      countTaskKey "a" b'.tasks = 1 :=
  C6_duplicate_key_last_write_wins (addTask "a" 0 5 true initState)
    (Reachable.add "a" 0 5 true Reachable.init) "a" 7 5 false
    ⟨[⟨"a", 0, true⟩], [], 5⟩ (by decide) (by decide)

/-- C7: when a bucket for the interval already exists, `addTask` joins it —
no new timer is created (the interval-key sequence is unchanged), the bucket
keeps its timer phase (`nextTick` unchanged), and the task is appended to the
existing table; on the repository's two-task scenario (`k3` at 0, `k4` at
1000, both interval 5000) both tasks have been invoked at least once after the
shared timer's tick at 5000. -/
theorem C7_join_existing_bucket_shared_cadence (s : SchedulerState)
    (k : String) (fd d : Nat) (ok : Bool) (b : IntervalBucket)
    (hb : findBucket d s.buckets = some b) :
    ((addTask k fd d ok s).buckets.map Prod.fst = s.buckets.map Prod.fst ∧
      findBucket d (addTask k fd d ok s).buckets =
        some { b with tasks := upsertTask ⟨k, fd, ok⟩ b.tasks }) ∧
    (1 ≤ countKD "k3" 5000 (advance 5001 (addTask "k4" 0 5000 true
        (advance 1000 (addTask "k3" 0 5000 true initState)))).log ∧
      1 ≤ countKD "k4" 5000 (advance 5001 (addTask "k4" 0 5000 true
        (advance 1000 (addTask "k3" 0 5000 true initState)))).log) := by
  constructor
  · constructor
    · rw [addTask_eq_join hb]
      exact setBucket_map_fst d _ s.buckets
    · rw [addTask_eq_join hb]
      exact findBucket_setBucket
        (fun hc => by rw [hb] at hc; exact Option.noConfusion hc)
  · have c0 : addTask "k3" 0 5000 true initState =
        (⟨0, [(5000, ⟨[⟨"k3", 0, true⟩], [], 5000⟩)], []⟩ : SchedulerState) := by decide
    have c1 : advance 1000 (⟨0, [(5000, ⟨[⟨"k3", 0, true⟩], [], 5000⟩)], []⟩ : SchedulerState) =
        (⟨1000, [(5000, ⟨[⟨"k3", 0, true⟩], [], 5000⟩)], []⟩ : SchedulerState) :=
      (advance_idle (by decide)).trans (by decide)
    have c2 : addTask "k4" 0 5000 true
        (⟨1000, [(5000, ⟨[⟨"k3", 0, true⟩], [], 5000⟩)], []⟩ : SchedulerState) =
        (⟨1000, [(5000, ⟨[⟨"k3", 0, true⟩, ⟨"k4", 0, true⟩], [], 5000⟩)], []⟩ :
          SchedulerState) := by decide
    have c3 : advance 3999
        (⟨1000, [(5000, ⟨[⟨"k3", 0, true⟩, ⟨"k4", 0, true⟩], [], 5000⟩)], []⟩ :
          SchedulerState) =
        (⟨4999, [(5000, ⟨[⟨"k3", 0, true⟩, ⟨"k4", 0, true⟩], [], 5000⟩)], []⟩ :
          SchedulerState) :=
      (advance_idle (by decide)).trans (by decide)
    have c4 : stepMs (⟨4999, [(5000, ⟨[⟨"k3", 0, true⟩, ⟨"k4", 0, true⟩], [], 5000⟩)], []⟩ :
        SchedulerState) =
        (⟨5000, [(5000, ⟨[⟨"k3", 0, true⟩, ⟨"k4", 0, true⟩], ["k3", "k4"], 10000⟩)],
          [⟨"k3", 5000, 5000⟩, ⟨"k4", 5000, 5000⟩]⟩ : SchedulerState) := by decide
    have c5 : advance 1001
        (⟨5000, [(5000, ⟨[⟨"k3", 0, true⟩, ⟨"k4", 0, true⟩], ["k3", "k4"], 10000⟩)],
          [⟨"k3", 5000, 5000⟩, ⟨"k4", 5000, 5000⟩]⟩ : SchedulerState) =
        (⟨6001, [(5000, ⟨[⟨"k3", 0, true⟩, ⟨"k4", 0, true⟩], ["k3", "k4"], 10000⟩)],
          [⟨"k3", 5000, 5000⟩, ⟨"k4", 5000, 5000⟩]⟩ : SchedulerState) :=
      (advance_idle (by decide)).trans (by decide)
    have hS : advance 5001 (addTask "k4" 0 5000 true
        (advance 1000 (addTask "k3" 0 5000 true initState))) =
        (⟨6001, [(5000, ⟨[⟨"k3", 0, true⟩, ⟨"k4", 0, true⟩], ["k3", "k4"], 10000⟩)],
          [⟨"k3", 5000, 5000⟩, ⟨"k4", 5000, 5000⟩]⟩ : SchedulerState) := by
      rw [c0, c1, c2, advance_split 4000 1001 5001 (by norm_num),
        advance_split 3999 1 4000 (by norm_num), c3]
      show advance 1001 (stepMs
        (⟨4999, [(5000, ⟨[⟨"k3", 0, true⟩, ⟨"k4", 0, true⟩], [], 5000⟩)], []⟩ :
          SchedulerState)) = _
      rw [c4, c5]
    rw [hS]
    exact ⟨by decide, by decide⟩

/-- Witness for C7: joining the existing interval-5 bucket of the empty
scheduler after one registration. -/
theorem C7_join_existing_bucket_shared_cadence_witness :
    (((addTask "b" 3 5 true (addTask "a" 0 5 true initState)).buckets.map Prod.fst =
        (addTask "a" 0 5 true initState).buckets.map Prod.fst ∧
      findBucket 5 (addTask "b" 3 5 true (addTask "a" 0 5 true initState)).buckets =
        some { (⟨[⟨"a", 0, true⟩], [], 5⟩ : IntervalBucket) with
            tasks := upsertTask ⟨"b", 3, true⟩
              (⟨[⟨"a", 0, true⟩], [], 5⟩ : IntervalBucket).tasks }) ∧
    (1 ≤ countKD "k3" 5000 (advance 5001 (addTask "k4" 0 5000 true
        (advance 1000 (addTask "k3" 0 5000 true initState)))).log ∧
      1 ≤ countKD "k4" 5000 (advance 5001 (addTask "k4" 0 5000 true
        (advance 1000 (addTask "k3" 0 5000 true initState)))).log)) :=
  C7_join_existing_bucket_shared_cadence (addTask "a" 0 5 true initState)
    "b" 3 5 true ⟨[⟨"a", 0, true⟩], [], 5⟩ (by decide)

end LowPrecisionTaskScheduler
